import Mathlib

/-!
Shallow embedding of the CamWork photo-organization scripts
(`model_sort_v2.3_estable_final.PY`, `date_sort_v1.2_estable.PY`,
`dup_search_v2.4_estable_tested_final.PY`, `raw_sort_v1.3_estable_final.PY`)
and proofs about the duplicate-detection and relocation logic.

Files are modelled by their byte content (`List Nat`, each entry a byte);
a directory listing is an association list from a name to a value.  The
filesystem mutations performed by the scripts (`os.mkdir`, `shutil.move`)
are explicit state passing on those association lists; fallible calls
(`open`/`read` in `sha256_of_file`, `os.mkdir`, `shutil.move`) are modelled
by `Option` results or by boolean failure oracles supplied as environment
parameters, since the script merely observes whether the call raised.
-/

namespace CamWork

/-- Lookup in an association list (first binding wins), mirroring a Python
dict whose keys are unique by construction. -/
def alGet {K V : Type} [DecidableEq K] (k : K) : List (K × V) → Option V
  | [] => none
  | (k2, v) :: rest => if k2 = k then some v else alGet k rest

/-- `d.setdefault(k, []).append(v)` on a dict of lists: append `v` to the
bucket of `k`, creating the bucket at the end (insertion order) if absent. -/
def alAppendVal {K V : Type} [DecidableEq K] (k : K) (v : V) :
    List (K × List V) → List (K × List V)
  | [] => [(k, [v])]
  | (k2, vs) :: rest =>
      if k2 = k then (k2, vs ++ [v]) :: rest else (k2, vs) :: alAppendVal k v rest

/-- `d[k] = v` on a dict: replace the binding of `k`, or append it. -/
def alSet {K V : Type} [DecidableEq K] (k : K) (v : V) :
    List (K × V) → List (K × V)
  | [] => [(k, v)]
  | (k2, v2) :: rest =>
      if k2 = k then (k2, v) :: rest else (k2, v2) :: alSet k v rest

/-! ## Calendar model

`datetime` values, as far as the scripts inspect them: year, month, day,
hour.  `fecha - timedelta(days=1)` preserves the time of day and performs
calendar day subtraction (Gregorian, with leap years). -/

structure DateTime where
  year : Nat
  month : Nat
  day : Nat
  hour : Nat
deriving DecidableEq

/-- Length of a Gregorian month. -/
def daysInMonth (y m : Nat) : Nat :=
  if m = 2 then
    if y % 4 = 0 ∧ (y % 100 ≠ 0 ∨ y % 400 = 0) then 29 else 28
  else if m = 4 ∨ m = 6 ∨ m = 9 ∨ m = 11 then 30
  else 31

/-- `fecha - timedelta(days=1)`: one calendar day earlier, same hour. -/
def minusOneDay (d : DateTime) : DateTime :=
  if 1 < d.day then { d with day := d.day - 1 }
  else if 1 < d.month then
    { d with month := d.month - 1, day := daysInMonth d.year (d.month - 1) }
  else { year := d.year - 1, month := 12, day := 31, hour := d.hour }

/-- `ajustar_mes_por_horario_especial` (date_sort v1.2 line 122, raw_sort
v1.3 line 494): day-1 shots before 08:00 are filed with the previous day. -/
def ajustar_mes_por_horario_especial (fecha : DateTime) : DateTime :=
  if fecha.day = 1 ∧ fecha.hour < 8 then minusOneDay fecha else fecha

/-- Zero-padded two-digit rendering of the month, `f"{fecha.month:02d}"`. -/
def pad2 (m : Nat) : String :=
  if m < 10 then "0" ++ toString m else toString m

/-- `generar_nombre_carpeta`: the `YYYY.MM` destination folder name. -/
def generar_nombre_carpeta (fecha : DateTime) : String :=
  toString fecha.year ++ "." ++ pad2 fecha.month

/-! ## Capture date lookup (`date_sort_v1.2_estable.PY`)

`leer_fecha_con_exiftool` shells out to exiftool; the embedding records its
observable result (a parsed datetime or `None`).  `os.stat` may raise, so
the creation/modification timestamps are `Option`s; `datetime.now()` is the
ambient clock. -/

structure FileMeta where
  exifDate : Option DateTime
  ctime : Option DateTime
  mtime : Option DateTime
deriving DecidableEq

/-- `obtener_fecha_captura` (date_sort v1.2 lines 101-120): EXIF date,
else filesystem creation time, else modification time, else the clock. -/
def obtener_fecha_captura (now : DateTime) (m : FileMeta) : DateTime :=
  match m.exifDate with
  | some fecha => fecha
  | none =>
      match m.ctime with
      | some creation_time => creation_time
      | none =>
          match m.mtime with
          | some modification_time => modification_time
          | none => now

/-! ## Fingerprint Service: SHA-256 (`sha256_of_file`)

`sha256_of_file` (dup_search v2.4 lines 79-92, model_sort v2.3 lines
125-138, raw_sort v1.3 lines 85-98) reads the file in 8192-byte chunks and
feeds them to `hashlib.sha256`, returning the digest, or `None` when the
read raises.  `hashlib.sha256` is the FIPS 180-4 SHA-256 function, embedded
below over byte lists with explicit `% 2^32` arithmetic; feeding chunks
incrementally hashes their concatenation, which is proved equal to the
whole content (`chunksOf_join`). -/

/-- Truncation to a 32-bit word. -/
def mask32 (x : Nat) : Nat := x % 4294967296

/-- 32-bit modular addition. -/
def add32 (a b : Nat) : Nat := (a + b) % 4294967296

/-- 32-bit right rotation. -/
def rotr32 (n x : Nat) : Nat := mask32 ((x >>> n) ||| (x <<< (32 - n)))

/-- SHA-256 big sigma 0. -/
def bigS0 (x : Nat) : Nat := rotr32 2 x ^^^ rotr32 13 x ^^^ rotr32 22 x

/-- SHA-256 big sigma 1. -/
def bigS1 (x : Nat) : Nat := rotr32 6 x ^^^ rotr32 11 x ^^^ rotr32 25 x

/-- SHA-256 small sigma 0. -/
def smallS0 (x : Nat) : Nat := rotr32 7 x ^^^ rotr32 18 x ^^^ (x >>> 3)

/-- SHA-256 small sigma 1. -/
def smallS1 (x : Nat) : Nat := rotr32 17 x ^^^ rotr32 19 x ^^^ (x >>> 10)

/-- SHA-256 choice function; the complement is xor with the all-ones word. -/
def chF (x y z : Nat) : Nat := (x &&& y) ^^^ ((x ^^^ 4294967295) &&& z)

/-- SHA-256 majority function. -/
def majF (x y z : Nat) : Nat := (x &&& y) ^^^ (x &&& z) ^^^ (y &&& z)

/-- The 64 SHA-256 round constants. -/
def K256 : List Nat :=
  [1116352408, 1899447441, 3049323471, 3921009573, 961987163, 1508970993,
   2453635748, 2870763221, 3624381080, 310598401, 607225278, 1426881987,
   1925078388, 2162078206, 2614888103, 3248222580, 3835390401, 4022224774,
   264347078, 604807628, 770255983, 1249150122, 1555081692, 1996064986,
   2554220882, 2821834349, 2952996808, 3210313671, 3336571891, 3584528711,
   113926993, 338241895, 666307205, 773529912, 1294757372, 1396182291,
   1695183700, 1986661051, 2177026350, 2456956037, 2730485921, 2820302411,
   3259730800, 3345764771, 3516065817, 3600352804, 4094571909, 275423344,
   430227734, 506948616, 659060556, 883997877, 958139571, 1322822218,
   1537002063, 1747873779, 1955562222, 2024104815, 2227730452, 2361852424,
   2428436474, 2756734187, 3204031479, 3329325298]

/-- The SHA-256 initial hash value. -/
def H0 : List Nat :=
  [1779033703, 3144134277, 1013904242, 2773480762,
   1359893119, 2600822924, 528734635, 1541459225]

/-- Big-endian byte rendering of a number on `n` bytes. -/
def bytesBE : Nat → Nat → List Nat
  | 0, _ => []
  | n + 1, x => bytesBE n (x / 256) ++ [x % 256]

/-- FIPS 180-4 padding: `0x80`, zeros, then the 64-bit big-endian bit
length, to a multiple of 64 bytes. -/
def padMessage (msg : List Nat) : List Nat :=
  msg ++ [128] ++ List.replicate ((64 - ((msg.length + 9) % 64)) % 64) 0
      ++ bytesBE 8 (8 * msg.length)

/-- Big-endian 32-bit words from bytes (four at a time). -/
def wordsOfBytes : List Nat → List Nat
  | b0 :: b1 :: b2 :: b3 :: rest =>
      (b0 * 16777216 + b1 * 65536 + b2 * 256 + b3) :: wordsOfBytes rest
  | _ => []

/-- Structural worker for `chunksOf`; the fuel is an upper bound on the
number of chunks, so it never runs out when it starts at the list length. -/
def chunksOfFuel (n : Nat) : Nat → List Nat → List (List Nat)
  | 0, _ => []
  | _ + 1, [] => []
  | fuel + 1, x :: xs => (x :: xs).take n :: chunksOfFuel n fuel ((x :: xs).drop n)

/-- Split a list into chunks of `n` elements (the last may be shorter);
`chunksOf 8192` models the fixed-size reads of `sha256_of_file`, and
`chunksOf 64` the block decomposition of the padded message. -/
def chunksOf (n : Nat) (l : List Nat) : List (List Nat) :=
  if n = 0 then [] else chunksOfFuel n l.length l

/-- Message-schedule extension of the 16 block words to 64. -/
def extendWords (ws : List Nat) : List Nat :=
  (List.range 48).foldl
    (fun acc _ =>
      acc ++ [add32
        (add32 (smallS1 (acc.getD (acc.length - 2) 0)) (acc.getD (acc.length - 7) 0))
        (add32 (smallS0 (acc.getD (acc.length - 15) 0)) (acc.getD (acc.length - 16) 0))])
    ws

/-- The eight SHA-256 working variables. -/
structure Hash8 where
  a : Nat
  b : Nat
  c : Nat
  d : Nat
  e : Nat
  f : Nat
  g : Nat
  h : Nat

/-- One SHA-256 compression round, consuming a round constant and a
schedule word. -/
def sha256Round (st : Hash8) (kw : Nat × Nat) : Hash8 :=
  let t1 := add32 st.h (add32 (bigS1 st.e) (add32 (chF st.e st.f st.g) (add32 kw.1 kw.2)))
  let t2 := add32 (bigS0 st.a) (majF st.a st.b st.c)
  { a := add32 t1 t2, b := st.a, c := st.b, d := st.c,
    e := add32 st.d t1, f := st.e, g := st.f, h := st.g }

/-- Word-wise modular addition of the pre- and post-compression states. -/
def addState (s t : Hash8) : List Nat :=
  [add32 s.a t.a, add32 s.b t.b, add32 s.c t.c, add32 s.d t.d,
   add32 s.e t.e, add32 s.f t.f, add32 s.g t.g, add32 s.h t.h]

/-- Compression of one 64-byte block into the running hash words. -/
def compressBlock (hs : List Nat) (block : List Nat) : List Nat :=
  let st0 : Hash8 := ⟨hs.getD 0 0, hs.getD 1 0, hs.getD 2 0, hs.getD 3 0,
                      hs.getD 4 0, hs.getD 5 0, hs.getD 6 0, hs.getD 7 0⟩
  addState st0 ((K256.zip (extendWords (wordsOfBytes block))).foldl sha256Round st0)

/-- SHA-256 digest of a byte string, as the eight final hash words. -/
def sha256Words (msg : List Nat) : List Nat :=
  (chunksOf 64 (padMessage msg)).foldl compressBlock H0

/-- Big-endian combination of hash words into one number (the digest that
`hexdigest` renders; equality of hex digests is equality of this number). -/
def combineWords (ws : List Nat) : Nat :=
  ws.foldl (fun acc w => acc * 4294967296 + w) 0

/-- The SHA-256 digest as a number below `2 ^ 256`. -/
def sha256Nat (msg : List Nat) : Nat := combineWords (sha256Words msg)

/-- `sha256_of_file`: chunked streaming hash of the file content, `none`
when the file cannot be read.  The argument is the readable content of the
file at the given path (`none` models an unreadable file). -/
def sha256_of_file (content : Option (List Nat)) : Option Nat :=
  content.map fun bytes => sha256Nat ((chunksOf 8192 bytes).flatten)

/-! ## Relocation engine of `date_sort_v1.2_estable.PY`

`organizar_fotos_por_fecha` (lines 173-235) iterates the `os.listdir`
snapshot of one camera folder, computes the `YYYY.MM` destination for each
file with an allowed extension, creates the month folder when missing,
skips the file when a same-named entry already exists at the destination,
and otherwise moves it, accumulating `folders_report` and `duplicates`.

The camera folder is one state: the month folders (name to directory
listing of `(file name, content)` pairs) plus the global accumulators.
`os.mkdir` and `shutil.move` may raise; the environment's boolean oracles
record at which paths they do.  The per-file outcome is instrumented in an
`outcomes` trace (the script only logs it). -/

/-- Lower-casing of a string, `s.lower()` (character-wise over the
string's character data). -/
def strLower (s : String) : String := ⟨s.data.map Char.toLower⟩

/-- `PHOTO_EXTENSIONS` of date_sort v1.2. -/
def PHOTO_EXTENSIONS_DATE : List String :=
  [".jpg", ".jpeg", ".png", ".cr2", ".arw", ".nef", ".raf", ".heic"]

/-- Extension admitted by date_sort v1.2 (`ext.lower() in PHOTO_EXTENSIONS`). -/
def allowedDate (e : String) : Bool := PHOTO_EXTENSIONS_DATE.contains (strLower e)

/-- A file of the camera folder as enumerated by `os.listdir`: its name,
the extension `os.path.splitext` yields from that name, the metadata the
capture-date lookup observes, and its byte content. -/
structure DFile where
  name : String
  ext : String
  meta : FileMeta
  content : List Nat
deriving DecidableEq

/-- One `folders_report` entry of date_sort v1.2 (lines 221-230). -/
structure DReport where
  created : Bool
  photos_count : Nat
  bytes_moved : Nat
  ext_count : List (String × Nat)
deriving DecidableEq

/-- Per-file outcome of the relocation loop (instrumented). -/
inductive DOutcome
  | moved (folder : String)
  | dup
  | mkdirErr
  | moveErr
deriving DecidableEq

/-- Whether an outcome is a move. -/
def DOutcome.isMoved : DOutcome → Bool
  | .moved _ => true
  | _ => false

/-- State of one camera folder during a run: month folders (directory
name to listing) and the accumulators `folders_report` and `duplicates`,
plus the instrumented outcome trace. -/
structure DState where
  months : List (String × List (String × List Nat))
  reports : List (String × DReport)
  dups : List String
  outcomes : List (String × DOutcome)
deriving DecidableEq

/-- External behavior during a run: the clock and which `os.mkdir` /
`shutil.move` calls raise (by month-folder name, resp. folder and file
name). -/
structure DateEnv where
  now : DateTime
  mkdirFails : String → Bool
  moveFails : String → String → Bool

/-- Whether a directory listing contains an entry with the given name
(`os.path.exists(nuevo_path)`). -/
def hasName (listing : List (String × List Nat)) (n : String) : Bool :=
  listing.any fun e => e.1 = n

/-- `ext_count.setdefault(ext, 0); ext_count[ext] += 1`. -/
def extCountAdd (e : String) : List (String × Nat) → List (String × Nat)
  | [] => [(e, 1)]
  | (e2, c) :: rest =>
      if e2 = e then (e2, c + 1) :: rest else (e2, c) :: extCountAdd e rest

/-- `folders_report` update after a successful move (lines 219-230): the
entry is created with `created: True` on first use, then its counters are
bumped. -/
def reportAdd (k : String) (sz : Nat) (e : String) :
    List (String × DReport) → List (String × DReport)
  | [] => [(k, ⟨true, 1, sz, [(e, 1)]⟩)]
  | (k2, r) :: rest =>
      if k2 = k then
        (k2, ⟨r.created, r.photos_count + 1, r.bytes_moved + sz,
              extCountAdd e r.ext_count⟩) :: rest
      else (k2, r) :: reportAdd k sz e rest

/-- Destination month folder of a file: `generar_nombre_carpeta(
ajustar_mes_por_horario_especial(obtener_fecha_captura(...)))`. -/
def carpetaOf (env : DateEnv) (f : DFile) : String :=
  generar_nombre_carpeta
    (ajustar_mes_por_horario_especial (obtener_fecha_captura env.now f.meta))

/-- The duplicate / move part of the loop body, once the month folder
`carpeta` exists with listing `entry` (lines 206-235).  Returns the new
state and whether the file left the camera folder. -/
def dateStepCore (env : DateEnv) (s : DState) (f : DFile) (carpeta : String)
    (entry : List (String × List Nat)) : DState × Bool :=
  if hasName entry f.name then
    ({ s with dups := s.dups ++ [f.name],
              outcomes := s.outcomes ++ [(f.name, .dup)] }, false)
  else if env.moveFails carpeta f.name then
    ({ s with outcomes := s.outcomes ++ [(f.name, .moveErr)] }, false)
  else
    ({ s with months := alAppendVal carpeta (f.name, f.content) s.months,
              reports := reportAdd carpeta f.content.length (strLower f.ext) s.reports,
              outcomes := s.outcomes ++ [(f.name, .moved carpeta)] }, true)

/-- The loop body of `organizar_fotos_por_fecha` for one file with an
allowed extension (lines 193-235): destination computation, `os.mkdir`
when the month folder is missing (a failure skips the file), then
`dateStepCore`. -/
def dateStep (env : DateEnv) (s : DState) (f : DFile) : DState × Bool :=
  let carpeta := carpetaOf env f
  match alGet carpeta s.months with
  | none =>
      if env.mkdirFails carpeta then
        ({ s with outcomes := s.outcomes ++ [(f.name, .mkdirErr)] }, false)
      else
        dateStepCore env { s with months := s.months ++ [(carpeta, [])] } f carpeta []
  | some entry => dateStepCore env s f carpeta entry

/-- The whole loop over the `os.listdir` snapshot; files with an extension
outside the allow-list are skipped without an outcome (line 190).  Returns
the final state and the files still in the camera folder afterwards. -/
def dateRun (env : DateEnv) : List DFile → DState → DState × List DFile
  | [], s => (s, [])
  | f :: fs, s =>
      if allowedDate f.ext then
        let p := dateStep env s f
        let r := dateRun env fs p.1
        (r.1, if p.2 then r.2 else f :: r.2)
      else
        let r := dateRun env fs s
        (r.1, f :: r.2)

/-! ## Relocation engine of `model_sort_v2.3_estable_final.PY`

`classify_images` (lines 255-326) iterates the `os.listdir` snapshot of
the `CAMERAS` root, reads the EXIF `Model` tag, maps it to a destination
folder, detects bit-wise duplicates against the destination folder via
`is_duplicate` (lines 140-157), and moves non-duplicates, accumulating
`unmapped`, `duplicates` and `moved`.

The run is parametric in the content-hash function `hash` applied by
`sha256_of_file` (instantiated with `sha256Nat` it is the script; the
relocation decisions depend on it only through digest comparisons).  A
file's `content` is `none` when reading it raises, which is exactly when
`sha256_of_file` returns `None`.  The EXIF lookup result is recorded on
the file.  The `hashed` trace is instrumented: it lists each path for
which `sha256_of_file` was invoked, in call order. -/

/-- `PHOTO_EXTENSIONS` of model_sort v2.3. -/
def PHOTO_EXTENSIONS_MODEL : List String :=
  [".arw", ".cr2", ".cr3", ".jpg", ".mov", ".mp4", ".mts"]

/-- Extension admitted by model_sort v2.3. -/
def allowedModel (e : String) : Bool := PHOTO_EXTENSIONS_MODEL.contains (strLower e)

/-- The `MODEL_TO_FOLDER` mapping (lines 43-59). -/
def MODEL_TO_FOLDER (model : String) : Option String :=
  alGet model
    [("Canon EOS 650D", "Canon EOS 650D"),
     ("Canon EOS M50m2", "Canon EOS M50m2"),
     ("Canon PowerShot G9 X Mark II", "Canon Powershot G9 X Mark II"),
     ("Canon PowerShot SX230 HS", "Canon PowerShot SX230 HS"),
     ("Canon PowerShot SX610 HS", "Canon PowerShot SX610 HS"),
     ("DMC-TZ57", "Panasonic DCM-TZ57"),
     ("DV300 / DV300F / DV305F", "Samsung DV300F"),
     ("Full HD Camcorder", "Samsung HMX-H300"),
     ("HMX-H300", "Samsung HMX-H300"),
     ("HERO7 White", "Gopro Hero7 White"),
     ("HERO10 Black", "Gopro Hero10 Black"),
     ("HERO11 Black", "Gopro Hero11 Black"),
     ("ILCE-6000", "Sony ILCE-6000"),
     ("WB30F", "Samsung WB30F"),
     ("WB30F/WB31F/WB32F", "Samsung WB30F")]

/-- `sanitize_folder_name` (line 100): invalid folder-name characters are
replaced by an underscore. -/
def sanitize_folder_name (name : String) : String :=
  ⟨name.data.map fun c =>
    if ['<', '>', ':', '\"', '/', '\\', '|', '?', '*'].contains c then '_' else c⟩

/-- A file at the `CAMERAS` root: name, extension, the EXIF `Model` tag
`get_camera_model` observes (`none` when absent or exiftool fails), and
its content (`none` when reading raises, making `sha256_of_file` fail). -/
structure MFile where
  name : String
  ext : String
  model : Option String
  content : Option (List Nat)
deriving DecidableEq

/-- The path string `os.path.join(CAMERAS_DIR, item)` of a root file. -/
def mpath (f : MFile) : String := "CAMERAS/" ++ f.name

/-- Per-file outcome of `classify_images` (instrumented): moved, treated
as duplicate (also the fate of a hash failure), unmapped model, or a
failed move. -/
inductive MOutcome
  | moved (folder : String)
  | dup
  | unmappedModel
  | moveErr
deriving DecidableEq

/-- Whether a classify outcome is a move. -/
def MOutcome.isMoved : MOutcome → Bool
  | .moved _ => true
  | _ => false

/-- State of a `classify_images` run: the destination folders with the
files `os.walk` would yield under them (a destination file's content is
`none` when reading it raises), the accumulator lists, and the
instrumented traces. -/
structure MState where
  dests : List (String × List (String × Option (List Nat)))
  unmapped : List String
  duplicates : List String
  movedL : List String
  scanned : List String
  hashed : List String
  outcomes : List (String × MOutcome)
deriving DecidableEq

/-- `scanned_cameras.add(folder)` (a set). -/
def scannedAdd (k : String) (l : List String) : List String :=
  if l.contains k then l else l ++ [k]

/-- `os.makedirs(dest, exist_ok=True)`: create the folder when missing. -/
def ensureKey (k : String) (dests : List (String × List (String × Option (List Nat)))) :
    List (String × List (String × Option (List Nat))) :=
  match alGet k dests with
  | some _ => dests
  | none => dests ++ [(k, [])]

/-- `shutil.move(src, os.path.join(dest, item))`: the file appears under
the destination folder; a same-named entry is overwritten (`os.rename`
semantics). -/
def destsMove (k n : String) (c : Option (List Nat)) :
    List (String × List (String × Option (List Nat))) →
      List (String × List (String × Option (List Nat)))
  | [] => [(k, [(n, c)])]
  | (k2, files) :: rest =>
      if k2 = k then (k2, alSet n c files) :: rest
      else (k2, files) :: destsMove k n c rest

/-- The `os.walk` comparison loop of `is_duplicate` (lines 152-157):
hash each destination file in turn and stop at the first digest match.
Returns the verdict and the extended `hashed` trace. -/
def scanDup (hash : List Nat → Nat) (srcHash : Nat) (folder : String) :
    List (String × Option (List Nat)) → List String → Bool × List String
  | [], hashedAcc => (false, hashedAcc)
  | (n, c) :: rest, hashedAcc =>
      let hashedAcc2 := hashedAcc ++ [folder ++ "/" ++ n]
      if c.map hash = some srcHash then (true, hashedAcc2)
      else scanDup hash srcHash folder rest hashedAcc2

/-- `is_duplicate(dest_folder, src_path)` (lines 140-157): hash the
source (a failure marks the file `unmapped` and reports it duplicate to
the caller), then compare against every file under the destination. -/
def is_duplicate (hash : List Nat → Nat) (s : MState) (folder : String)
    (f : MFile) : Bool × MState :=
  let s1 := { s with hashed := s.hashed ++ [mpath f] }
  match f.content.map hash with
  | none => (true, { s1 with unmapped := s1.unmapped ++ [mpath f] })
  | some srcHash =>
      let entry := (alGet folder s1.dests).getD []
      let sc := scanDup hash srcHash folder entry s1.hashed
      (sc.1, { s1 with hashed := sc.2 })

/-- The `classify_images` loop body for one file with an allowed
extension (lines 280-313): EXIF model, folder mapping, `makedirs`,
duplicate detection, move (whose failure appends to `duplicates`). -/
def classifyStep (hash : List Nat → Nat) (moveFails : String → String → Bool)
    (s : MState) (f : MFile) : MState × Bool :=
  match f.model with
  | none =>
      ({ s with unmapped := s.unmapped ++ [mpath f],
                outcomes := s.outcomes ++ [(f.name, .unmappedModel)] }, false)
  | some m =>
      match MODEL_TO_FOLDER m with
      | none =>
          ({ s with unmapped := s.unmapped ++ [mpath f],
                    outcomes := s.outcomes ++ [(f.name, .unmappedModel)] }, false)
      | some folder =>
          let dest := sanitize_folder_name folder
          let s1 := { s with scanned := scannedAdd folder s.scanned,
                             dests := ensureKey dest s.dests }
          let dup := is_duplicate hash s1 dest f
          if dup.1 then
            ({ dup.2 with duplicates := dup.2.duplicates ++ [mpath f],
                          outcomes := dup.2.outcomes ++ [(f.name, .dup)] }, false)
          else if moveFails dest f.name then
            ({ dup.2 with duplicates := dup.2.duplicates ++ [mpath f],
                          outcomes := dup.2.outcomes ++ [(f.name, .moveErr)] }, false)
          else
            ({ dup.2 with dests := destsMove dest f.name f.content dup.2.dests,
                          movedL := dup.2.movedL ++ [mpath f],
                          outcomes := dup.2.outcomes ++ [(f.name, .moved dest)] }, true)

/-- The whole `classify_images` loop over the `os.listdir` snapshot of
`CAMERAS`; files with other extensions are skipped (lines 275-277).
Returns the final state and the files still at the root afterwards. -/
def classifyRun (hash : List Nat → Nat) (moveFails : String → String → Bool) :
    List MFile → MState → MState × List MFile
  | [], s => (s, [])
  | f :: fs, s =>
      if allowedModel f.ext then
        let p := classifyStep hash moveFails s f
        let r := classifyRun hash moveFails fs p.1
        (r.1, if p.2 then r.2 else f :: r.2)
      else
        let r := classifyRun hash moveFails fs s
        (r.1, f :: r.2)

/-! ## Scope grouping of `dup_search_v2.4_estable_tested_final.PY`

`detectar_duplicados` (lines 159-203) receives `files_by_folder`, the
folder-to-sorted-file-names mapping built by `listar_contenidos`, groups
every path by `(camera, file name)` — the camera being the first segment
of the folder path relative to `CAMERAS` — and, only for names repeated
within a camera (`len(paths) < 2: continue`), hashes each path of the
bucket.  Folders are modelled as their segment lists relative to
`CAMERAS`; `files_by_folder` is an ordered association list, faithful to
dict insertion order. -/

/-- `camera_to_names.setdefault(cam, {}).setdefault(name, []).append(path)`:
the two-level dict insert of the grouping phase (lines 168-174). -/
def ctnAdd (cam name : String) (p : List String) :
    List (String × List (String × List (List String))) →
      List (String × List (String × List (List String)))
  | [] => [(cam, [(name, [p])])]
  | (c, inner) :: rest =>
      if c = cam then (c, alAppendVal name p inner) :: rest
      else (c, inner) :: ctnAdd cam name p rest

/-- The grouping phase: fold `files_by_folder` into `camera_to_names`. -/
def buildCTN (fbf : List (List String × List String)) :
    List (String × List (String × List (List String))) :=
  fbf.foldl
    (fun acc fp =>
      fp.2.foldl (fun acc2 n => ctnAdd (fp.1.headD "") n (fp.1 ++ [n]) acc2) acc)
    []

/-- The paths the hashing phase feeds to `sha256_of_file`, in loop order:
all members of every bucket with at least two paths (lines 180-189). -/
def dupHashedPaths (ctn : List (String × List (String × List (List String)))) :
    List (List String) :=
  ctn.foldl
    (fun acc ce =>
      ce.2.foldl (fun acc2 ne => if ne.2.length < 2 then acc2 else acc2 ++ ne.2) acc)
    []

/-- All `(folder, name)` pairs enumerated by `files_by_folder`. -/
def enumPairs (fbf : List (List String × List String)) :
    List (List String × String) :=
  fbf.flatMap fun fp => fp.2.map fun n => (fp.1, n)

/-- The paths of the enumeration whose camera (first folder segment) and
file name match the given key, in enumeration order: the reference
reading of one scope bucket. -/
def keyPaths (cam name : String) (fbf : List (List String × List String)) :
    List (List String) :=
  (enumPairs fbf).filterMap fun q =>
    if q.1.headD "" = cam ∧ q.2 = name then some (q.1 ++ [q.2]) else none

/-- Bucket lookup in the built two-level dict. -/
def pathsFor (cam name : String)
    (ctn : List (String × List (String × List (List String)))) :
    List (List String) :=
  (alGet name ((alGet cam ctn).getD [])).getD []

/-! ## Derived observations used by the statements -/

/-- The month-folder listing under a name, empty when the folder is
missing. -/
def entryOf (months : List (String × List (String × List Nat))) (k : String) :
    List (String × List Nat) :=
  (alGet k months).getD []

/-- The destination-folder listing under a name in a classify state,
empty when the folder is missing. -/
def entryOfM (dests : List (String × List (String × Option (List Nat))))
    (k : String) : List (String × Option (List Nat)) :=
  (alGet k dests).getD []

/-- Total `photos_count` over `folders_report`: the number of files the
final report accounts as moved. -/
def sumPhotos (rs : List (String × DReport)) : Nat :=
  (rs.map fun r => r.2.photos_count).sum

/-- Number of `MOVED` outcomes in a trace. -/
def countMoved (outs : List (String × DOutcome)) : Nat :=
  (outs.filter fun o => o.2.isMoved).length

/-- Whether a file finds a same-named entry at its destination folder in
the given month state (the `os.path.exists(nuevo_path)` test). -/
def isDupCase (env : DateEnv) (months : List (String × List (String × List Nat)))
    (f : DFile) : Bool :=
  hasName (entryOf months (carpetaOf env f)) f.name

/-- The outcome a file left behind by a run will reproduce against the
final month state: duplicate when its name is at the destination, a
`mkdir` failure when its month folder is missing, a move failure
otherwise. -/
def stuckOutcome (env : DateEnv) (months : List (String × List (String × List Nat)))
    (f : DFile) : DOutcome :=
  if isDupCase env months f then .dup
  else if (alGet (carpetaOf env f) months).isNone then .mkdirErr
  else .moveErr

/-- A file is stuck at a month state when processing it there cannot move
it: its name is already at the destination, or the missing month folder
cannot be created, or its own move raises. -/
def stuckAt (env : DateEnv) (months : List (String × List (String × List Nat)))
    (f : DFile) : Bool :=
  if isDupCase env months f then true
  else if (alGet (carpetaOf env f) months).isNone then env.mkdirFails (carpetaOf env f)
  else env.moveFails (carpetaOf env f) f.name

/-! ## Concrete instances for the closed statements

Small inputs at which the runs are evaluated in the counterexample and
witness theorems below. -/

/-- A benign environment: clock at 2024-05-10 12:00, no failing call. -/
def exEnv : DateEnv := ⟨⟨2024, 5, 10, 12⟩, fun _ => false, fun _ _ => false⟩

/-- Same clock, but every `shutil.move` raises. -/
def exEnvMF : DateEnv := ⟨⟨2024, 5, 10, 12⟩, fun _ => false, fun _ _ => true⟩

/-- A photo shot 2024-05-10 12:00 with content `[2]`. -/
def exF2 : DFile := ⟨"IMG_1.JPG", ".jpg", ⟨some ⟨2024, 5, 10, 12⟩, none, none⟩, [2]⟩

/-- A photo shot 2024-05-10 12:00 with content `[1]`. -/
def exF1 : DFile := ⟨"IMG_1.JPG", ".jpg", ⟨some ⟨2024, 5, 10, 12⟩, none, none⟩, [1]⟩

/-- A camera folder whose month folder already holds `IMG_1.JPG` with
content `[1]`. -/
def exStateDup : DState :=
  ⟨[(carpetaOf exEnv exF2, [("IMG_1.JPG", [1])])], [], [], []⟩

/-- A filesystem holding one readable file under `A/`. -/
def exFS1 : String → Option (List Nat) :=
  fun p => if p = "A/IMG_1.JPG" then some [5, 6] else none

/-- A filesystem holding a byte-identical file under another path and
name. -/
def exFS2 : String → Option (List Nat) :=
  fun p => if p = "B/IMG_9.JPG" then some [5, 6] else none

/-- A root file named `b.jpg`, Sony model, content `[1]`. -/
def exMFb : MFile := ⟨"b.jpg", ".jpg", some "ILCE-6000", some [1]⟩

/-- A root file named `a.jpg`, same model, byte-identical content. -/
def exMFa : MFile := ⟨"a.jpg", ".jpg", some "ILCE-6000", some [1]⟩

/-- A root file whose content cannot be read (hashing fails). -/
def exMFu : MFile := ⟨"c.jpg", ".jpg", some "ILCE-6000", none⟩

/-- The empty classify state. -/
def exMS0 : MState := ⟨[], [], [], [], [], [], []⟩

/-- No `shutil.move` failure. -/
def exNoMF : String → String → Bool := fun _ _ => false

/-! # Theorems

First the library lemmas about the association lists and the hash, then
the run lemmas, then one theorem per specification claim. -/

theorem alGet_append {K V : Type} [DecidableEq K] (k : K) (xs ys : List (K × V)) :
    alGet k (xs ++ ys) =
      match alGet k xs with
      | some v => some v
      | none => alGet k ys := by
  induction xs with
  | nil => simp [alGet]
  | cons p rest ih =>
      by_cases h : p.1 = k <;> simp [alGet, h, ih]

theorem alGet_alAppendVal_self {K V : Type} [DecidableEq K] (k : K) (v : V)
    (l : List (K × List V)) :
    alGet k (alAppendVal k v l) = some ((alGet k l).getD [] ++ [v]) := by
  induction l with
  | nil => simp [alAppendVal, alGet]
  | cons p rest ih =>
      by_cases h : p.1 = k
      · simp [alAppendVal, alGet, h]
      · simp [alAppendVal, alGet, h, ih]

theorem alGet_alAppendVal_ne {K V : Type} [DecidableEq K] (k k2 : K) (v : V)
    (l : List (K × List V)) (h : k2 ≠ k) :
    alGet k (alAppendVal k2 v l) = alGet k l := by
  induction l with
  | nil => simp [alAppendVal, alGet, h]
  | cons p rest ih =>
      by_cases h2 : p.1 = k2
      · subst h2; simp [alAppendVal, alGet, h]
      · simp [alAppendVal, alGet, h2, ih]

theorem alGet_alSet_self {K V : Type} [DecidableEq K] (k : K) (v : V)
    (l : List (K × V)) : alGet k (alSet k v l) = some v := by
  induction l with
  | nil => simp [alSet, alGet]
  | cons p rest ih =>
      by_cases h : p.1 = k
      · simp [alSet, alGet, h]
      · simp [alSet, alGet, h, ih]

theorem alGet_alSet_ne {K V : Type} [DecidableEq K] (k k2 : K) (v : V)
    (l : List (K × V)) (h : k2 ≠ k) :
    alGet k (alSet k2 v l) = alGet k l := by
  induction l with
  | nil => simp [alSet, alGet, h]
  | cons p rest ih =>
      by_cases h2 : p.1 = k2
      · subst h2; simp [alSet, alGet, h]
      · simp [alSet, alGet, h2, ih]

theorem chunksOfFuel_flatten (n : Nat) (hn : 0 < n) :
    ∀ (fuel : Nat) (l : List Nat), l.length ≤ fuel →
      (chunksOfFuel n fuel l).flatten = l := by
  intro fuel
  induction fuel with
  | zero =>
      intro l hl
      have : l = [] := List.eq_nil_of_length_eq_zero (by omega)
      subst this; rfl
  | succ m ih =>
      intro l hl
      match l with
      | [] => rfl
      | x :: xs =>
          have hdrop : ((x :: xs).drop n).length ≤ m := by
            simp only [List.length_drop, List.length_cons]
            simp only [List.length_cons] at hl
            omega
          simp [chunksOfFuel, ih _ hdrop]

theorem chunksOf_flatten (n : Nat) (hn : 0 < n) (l : List Nat) :
    (chunksOf n l).flatten = l := by
  rw [chunksOf, if_neg (by omega)]
  exact chunksOfFuel_flatten n hn l.length l le_rfl

/-- Streaming the file in 8 KiB chunks hashes exactly the whole content. -/
theorem sha256_of_file_eq (content : List Nat) :
    sha256_of_file (some content) = some (sha256Nat content) := by
  simp [sha256_of_file, chunksOf_flatten 8192 (by norm_num) content]

theorem add32_lt (a b : Nat) : add32 a b < 4294967296 :=
  Nat.mod_lt _ (by norm_num)

theorem addState_mem_lt (s t : Hash8) :
    ∀ w ∈ addState s t, w < 4294967296 := by
  intro w hw
  simp only [addState, List.mem_cons, List.not_mem_nil, or_false] at hw
  rcases hw with h | h | h | h | h | h | h | h <;> (subst h; exact add32_lt _ _)

theorem compressBlock_mem_lt (hs block : List Nat) :
    ∀ w ∈ compressBlock hs block, w < 4294967296 := fun w hw =>
  addState_mem_lt _ _ w hw

theorem foldl_compressBlock_mem_lt (blocks : List (List Nat)) (hs : List Nat)
    (hhs : ∀ w ∈ hs, w < 4294967296) :
    ∀ w ∈ blocks.foldl compressBlock hs, w < 4294967296 := by
  induction blocks generalizing hs with
  | nil => exact hhs
  | cons b bs ih => exact ih _ (compressBlock_mem_lt hs b)

theorem sha256Words_mem_lt (msg : List Nat) :
    ∀ w ∈ sha256Words msg, w < 4294967296 :=
  foldl_compressBlock_mem_lt _ H0 (by decide)

theorem foldl_compressBlock_length (blocks : List (List Nat)) (hs : List Nat)
    (hhs : hs.length = 8) : (blocks.foldl compressBlock hs).length = 8 := by
  induction blocks generalizing hs with
  | nil => exact hhs
  | cons b bs ih => exact ih _ rfl

theorem sha256Words_length (msg : List Nat) : (sha256Words msg).length = 8 :=
  foldl_compressBlock_length _ H0 (by decide)

theorem combineWords_foldl_lt (ws : List Nat) (acc : Nat)
    (hws : ∀ w ∈ ws, w < 4294967296) :
    ws.foldl (fun a w => a * 4294967296 + w) acc <
      (acc + 1) * 4294967296 ^ ws.length := by
  induction ws generalizing acc with
  | nil => simp
  | cons w rest ih =>
      have hw : w < 4294967296 := hws w (List.mem_cons_self w rest)
      have hrest : ∀ v ∈ rest, v < 4294967296 := fun v hv =>
        hws v (List.mem_cons_of_mem w hv)
      have h1 := ih (acc * 4294967296 + w) hrest
      have h2 : (acc * 4294967296 + w + 1) * 4294967296 ^ rest.length ≤
          (acc + 1) * 4294967296 ^ (rest.length + 1) := by
        have : acc * 4294967296 + w + 1 ≤ (acc + 1) * 4294967296 := by nlinarith
        calc (acc * 4294967296 + w + 1) * 4294967296 ^ rest.length
            ≤ ((acc + 1) * 4294967296) * 4294967296 ^ rest.length :=
              Nat.mul_le_mul_right _ this
          _ = (acc + 1) * 4294967296 ^ (rest.length + 1) := by ring
      simpa [List.foldl_cons] using lt_of_lt_of_le h1 h2

theorem sha256Nat_lt (msg : List Nat) : sha256Nat msg < 2 ^ 256 := by
  have h := combineWords_foldl_lt (sha256Words msg) 0 (sha256Words_mem_lt msg)
  rw [sha256Words_length] at h
  simpa [sha256Nat, combineWords] using h

/-- Pigeonhole: a 256-bit digest cannot separate all byte strings; two
distinct byte lists share their SHA-256 digest. -/
theorem sha256_collision :
    ∃ a b : List Nat, (∀ x ∈ a, x < 256) ∧ (∀ x ∈ b, x < 256) ∧
      a ≠ b ∧ sha256Nat a = sha256Nat b := by
  classical
  obtain ⟨x, y, hxy, hf⟩ :=
    Finite.exists_ne_map_eq_of_infinite
      (fun l : List (Fin 256) => (⟨sha256Nat (l.map Fin.val), sha256Nat_lt _⟩ : Fin (2 ^ 256)))
  refine ⟨x.map Fin.val, y.map Fin.val, ?_, ?_, ?_, ?_⟩
  · intro v hv
    obtain ⟨u, _, rfl⟩ := List.mem_map.mp hv
    exact u.isLt
  · intro v hv
    obtain ⟨u, _, rfl⟩ := List.mem_map.mp hv
    exact u.isLt
  · exact fun hmap => hxy ((List.map_injective_iff.mpr Fin.val_injective) hmap)
  · exact congrArg Fin.val hf

/-! ### Lemmas about the date_sort run -/

theorem mem_entryOf_some {months : List (String × List (String × List Nat))}
    {k : String} {pr : String × List Nat} (h : pr ∈ entryOf months k) :
    alGet k months = some (entryOf months k) := by
  unfold entryOf at h ⊢
  cases halGet : alGet k months with
  | none => simp [halGet] at h
  | some e => simp [halGet]

theorem entryOf_append {months rest : List (String × List (String × List Nat))}
    {k : String} {e : List (String × List Nat)} (h : alGet k months = some e) :
    entryOf (months ++ rest) k = entryOf months k := by
  unfold entryOf
  rw [alGet_append, h]

theorem entryOf_alAppendVal_self (months : List (String × List (String × List Nat)))
    (k : String) (pr : String × List Nat) :
    entryOf (alAppendVal k pr months) k = entryOf months k ++ [pr] := by
  unfold entryOf
  rw [alGet_alAppendVal_self]
  rfl

theorem entryOf_alAppendVal_ne (months : List (String × List (String × List Nat)))
    (k k2 : String) (pr : String × List Nat) (h : k2 ≠ k) :
    entryOf (alAppendVal k2 pr months) k = entryOf months k := by
  unfold entryOf
  rw [alGet_alAppendVal_ne _ _ _ _ h]

theorem sumPhotos_reportAdd (k : String) (sz : Nat) (e : String)
    (rs : List (String × DReport)) :
    sumPhotos (reportAdd k sz e rs) = sumPhotos rs + 1 := by
  induction rs with
  | nil => simp [reportAdd, sumPhotos]
  | cons p rest ih =>
      by_cases h : p.1 = k
      · simp [reportAdd, h, sumPhotos]; omega
      · simp only [reportAdd, h, if_false, sumPhotos, List.map_cons, List.sum_cons]
        simp only [sumPhotos] at ih
        omega

theorem dateStepCore_char (env : DateEnv) (s : DState) (f : DFile)
    (carpeta : String) (entry : List (String × List Nat)) :
    ∃ o : DOutcome,
      (dateStepCore env s f carpeta entry).1.outcomes = s.outcomes ++ [(f.name, o)] ∧
      (dateStepCore env s f carpeta entry).2 = o.isMoved ∧
      (dateStepCore env s f carpeta entry).1.dups =
        s.dups ++ (if o = .dup then [f.name] else []) ∧
      sumPhotos (dateStepCore env s f carpeta entry).1.reports =
        sumPhotos s.reports + (if o.isMoved then 1 else 0) ∧
      (∀ k, o = .moved k → k = carpeta ∧
        (f.name, f.content) ∈ entryOf (dateStepCore env s f carpeta entry).1.months k) := by
  unfold dateStepCore
  by_cases h1 : hasName entry f.name
  · exact ⟨.dup, by simp [h1], by simp [h1, DOutcome.isMoved], by simp [h1],
      by simp [h1, DOutcome.isMoved], by intro k hk; cases hk⟩
  · by_cases h2 : env.moveFails carpeta f.name
    · exact ⟨.moveErr, by simp [h1, h2], by simp [h1, h2, DOutcome.isMoved],
        by simp [h1, h2], by simp [h1, h2, DOutcome.isMoved], by intro k hk; cases hk⟩
    · refine ⟨.moved carpeta, by simp [h1, h2], by simp [h1, h2, DOutcome.isMoved],
        by simp [h1, h2], by simp [h1, h2, DOutcome.isMoved, sumPhotos_reportAdd], ?_⟩
      intro k hk
      injection hk with hk
      subst hk
      refine ⟨rfl, ?_⟩
      simp only [h1, Bool.false_eq_true, if_false, h2]
      rw [entryOf_alAppendVal_self]
      exact List.mem_append_right _ (List.mem_singleton_self _)

theorem dateStep_char (env : DateEnv) (s : DState) (f : DFile) :
    ∃ o : DOutcome,
      (dateStep env s f).1.outcomes = s.outcomes ++ [(f.name, o)] ∧
      (dateStep env s f).2 = o.isMoved ∧
      (dateStep env s f).1.dups = s.dups ++ (if o = .dup then [f.name] else []) ∧
      sumPhotos (dateStep env s f).1.reports =
        sumPhotos s.reports + (if o.isMoved then 1 else 0) ∧
      (∀ k, o = .moved k → k = carpetaOf env f ∧
        (f.name, f.content) ∈ entryOf (dateStep env s f).1.months k) := by
  unfold dateStep
  cases halGet : alGet (carpetaOf env f) s.months with
  | none =>
      by_cases hmk : env.mkdirFails (carpetaOf env f)
      · exact ⟨.mkdirErr, by simp [halGet, hmk], by simp [halGet, hmk, DOutcome.isMoved],
          by simp [halGet, hmk], by simp [halGet, hmk, DOutcome.isMoved],
          by intro k hk; cases hk⟩
      · simp only [halGet, hmk, if_false]
        exact dateStepCore_char env _ f _ []
  | some entry =>
      simp only [halGet]
      exact dateStepCore_char env s f _ entry

theorem dateStep_months_shape (env : DateEnv) (s : DState) (f : DFile) :
    (dateStep env s f).1.months = s.months ∨
    (env.mkdirFails (carpetaOf env f) = false ∧
      alGet (carpetaOf env f) s.months = none ∧
      ((dateStep env s f).1.months = s.months ++ [(carpetaOf env f, [])] ∨
       (dateStep env s f).1.months =
         alAppendVal (carpetaOf env f) (f.name, f.content)
           (s.months ++ [(carpetaOf env f, [])]))) ∨
    (∃ e, alGet (carpetaOf env f) s.months = some e ∧
      (dateStep env s f).1.months =
        alAppendVal (carpetaOf env f) (f.name, f.content) s.months) := by
  unfold dateStep
  cases halGet : alGet (carpetaOf env f) s.months with
  | none =>
      by_cases hmk : env.mkdirFails (carpetaOf env f)
      · exact Or.inl (by simp [halGet, hmk])
      · refine Or.inr (Or.inl ⟨by simp [hmk], rfl, ?_⟩)
        simp only [halGet, hmk, if_false]
        unfold dateStepCore
        by_cases h1 : hasName ([] : List (String × List Nat)) f.name
        · exact Or.inl (by simp [h1])
        · by_cases h2 : env.moveFails (carpetaOf env f) f.name
          · exact Or.inl (by simp [h1, h2])
          · exact Or.inr (by simp [h1, h2])
  | some entry =>
      simp only [halGet]
      unfold dateStepCore
      by_cases h1 : hasName entry f.name
      · exact Or.inl (by simp [h1])
      · by_cases h2 : env.moveFails (carpetaOf env f) f.name
        · exact Or.inl (by simp [h1, h2])
        · exact Or.inr (Or.inr ⟨entry, rfl, by simp [h1, h2]⟩)

theorem dateStep_month_pair_mono (env : DateEnv) (s : DState) (f : DFile)
    (k : String) (pr : String × List Nat) (h : pr ∈ entryOf s.months k) :
    pr ∈ entryOf (dateStep env s f).1.months k := by
  rcases dateStep_months_shape env s f with h1 | ⟨hmk, hnone, h1 | h1⟩ | ⟨e, hsome, h1⟩
  · rw [h1]; exact h
  · rw [h1, entryOf_append (mem_entryOf_some h)]; exact h
  · rw [h1]
    by_cases hk : carpetaOf env f = k
    · subst hk
      rw [entryOf_alAppendVal_self, entryOf_append (mem_entryOf_some h)]
      exact List.mem_append_left _ h
    · rw [entryOf_alAppendVal_ne _ _ _ _ hk, entryOf_append (mem_entryOf_some h)]
      exact h
  · rw [h1]
    by_cases hk : carpetaOf env f = k
    · subst hk
      rw [entryOf_alAppendVal_self]
      exact List.mem_append_left _ h
    · rw [entryOf_alAppendVal_ne _ _ _ _ hk]
      exact h

theorem dateRun_month_pair_mono (env : DateEnv) :
    ∀ (files : List DFile) (s : DState) (k : String) (pr : String × List Nat),
      pr ∈ entryOf s.months k → pr ∈ entryOf (dateRun env files s).1.months k := by
  intro files
  induction files with
  | nil => intro s k pr h; exact h
  | cons f fs ih =>
      intro s k pr h
      by_cases hext : allowedDate f.ext
      · simp only [dateRun, hext, if_true]
        exact ih _ k pr (dateStep_month_pair_mono env s f k pr h)
      · simp only [dateRun, hext, Bool.false_eq_true, if_false]
        exact ih _ k pr h

theorem dateStep_month_keeps_none (env : DateEnv) (s : DState) (f : DFile)
    (k : String) (hmk : env.mkdirFails k = true)
    (h : alGet k s.months = none) :
    alGet k (dateStep env s f).1.months = none := by
  rcases dateStep_months_shape env s f with h1 | ⟨hmk2, hnone, h1 | h1⟩ | ⟨e, hsome, h1⟩
  · rw [h1]; exact h
  · have hk : carpetaOf env f ≠ k := fun he => by rw [he] at hmk2; rw [hmk2] at hmk; cases hmk
    rw [h1, alGet_append, h]
    simp [alGet, hk]
  · have hk : carpetaOf env f ≠ k := fun he => by rw [he] at hmk2; rw [hmk2] at hmk; cases hmk
    rw [h1, alGet_alAppendVal_ne _ _ _ _ hk, alGet_append, h]
    simp [alGet, hk]
  · have hk : carpetaOf env f ≠ k := fun he => by rw [he] at hsome; rw [h] at hsome; cases hsome
    rw [h1, alGet_alAppendVal_ne _ _ _ _ hk]
    exact h

theorem dateRun_month_keeps_none (env : DateEnv) :
    ∀ (files : List DFile) (s : DState) (k : String),
      env.mkdirFails k = true → alGet k s.months = none →
      alGet k (dateRun env files s).1.months = none := by
  intro files
  induction files with
  | nil => intro s k hmk h; exact h
  | cons f fs ih =>
      intro s k hmk h
      by_cases hext : allowedDate f.ext
      · simp only [dateRun, hext, if_true]
        exact ih _ k hmk (dateStep_month_keeps_none env s f k hmk h)
      · simp only [dateRun, hext, Bool.false_eq_true, if_false]
        exact ih _ k hmk h

theorem hasName_append_single (e : List (String × List Nat)) (m : String)
    (c : List Nat) (n : String) :
    hasName (e ++ [(m, c)]) n = (hasName e n || (m = n : Bool)) := by
  simp [hasName, List.any_append]

theorem dateStep_no_name_add (env : DateEnv) (s : DState) (f : DFile)
    (k n : String) (hn : hasName (entryOf s.months k) n = false)
    (hne : f.name ≠ n) :
    hasName (entryOf (dateStep env s f).1.months k) n = false := by
  rcases dateStep_months_shape env s f with h1 | ⟨hmk, hnone, h1 | h1⟩ | ⟨e, hsome, h1⟩
  · rw [h1]; exact hn
  · rw [h1]
    by_cases hk : carpetaOf env f = k
    · subst hk
      unfold entryOf
      rw [alGet_append, hnone]
      simp [alGet, hasName]
    · unfold entryOf
      rw [alGet_append]
      cases halGet : alGet k s.months with
      | none => simp [alGet, hk, hasName]
      | some e2 => unfold entryOf at hn; rw [halGet] at hn; simpa using hn
  · rw [h1]
    by_cases hk : carpetaOf env f = k
    · subst hk
      rw [entryOf_alAppendVal_self, hasName_append_single]
      have hbase : hasName (entryOf (s.months ++ [(carpetaOf env f, [])]) (carpetaOf env f)) n = false := by
        unfold entryOf
        rw [alGet_append, hnone]
        simp [alGet, hasName]
      rw [hbase]
      simp [hne]
    · rw [entryOf_alAppendVal_ne _ _ _ _ hk]
      unfold entryOf
      rw [alGet_append]
      cases halGet : alGet k s.months with
      | none => simp [alGet, hk, hasName]
      | some e2 => unfold entryOf at hn; rw [halGet] at hn; simpa using hn
  · rw [h1]
    by_cases hk : carpetaOf env f = k
    · subst hk
      rw [entryOf_alAppendVal_self, hasName_append_single, hn]
      simp [hne]
    · rw [entryOf_alAppendVal_ne _ _ _ _ hk]
      exact hn

theorem dateRun_no_name_add (env : DateEnv) :
    ∀ (files : List DFile) (s : DState) (k n : String),
      hasName (entryOf s.months k) n = false → (∀ g ∈ files, g.name ≠ n) →
      hasName (entryOf (dateRun env files s).1.months k) n = false := by
  intro files
  induction files with
  | nil => intro s k n hn _; exact hn
  | cons f fs ih =>
      intro s k n hn hall
      by_cases hext : allowedDate f.ext
      · simp only [dateRun, hext, if_true]
        exact ih _ k n
          (dateStep_no_name_add env s f k n hn (hall f (List.mem_cons_self f fs)))
          (fun g hg => hall g (List.mem_cons_of_mem f hg))
      · simp only [dateRun, hext, Bool.false_eq_true, if_false]
        exact ih _ k n hn (fun g hg => hall g (List.mem_cons_of_mem f hg))

theorem dateRun_rem_sub (env : DateEnv) :
    ∀ (files : List DFile) (s : DState) (g : DFile),
      g ∈ (dateRun env files s).2 → g ∈ files := by
  intro files
  induction files with
  | nil => intro s g h; simp [dateRun] at h
  | cons f fs ih =>
      intro s g h
      by_cases hext : allowedDate f.ext
      · simp only [dateRun, hext, if_true] at h
        by_cases hmv : (dateStep env s f).2
        · rw [if_pos hmv] at h
          exact List.mem_cons_of_mem f (ih _ g h)
        · rw [if_neg hmv] at h
          rcases List.mem_cons.mp h with h | h
          · exact h ▸ List.mem_cons_self f fs
          · exact List.mem_cons_of_mem f (ih _ g h)
      · simp only [dateRun, hext, Bool.false_eq_true, if_false] at h
        rcases List.mem_cons.mp h with h | h
        · exact h ▸ List.mem_cons_self f fs
        · exact List.mem_cons_of_mem f (ih _ g h)

theorem dateRun_outcomes_frozen (env : DateEnv) :
    ∀ (files : List DFile) (s : DState) (n : String),
      (∀ g ∈ files, g.name ≠ n) →
      alGet n (dateRun env files s).1.outcomes = alGet n s.outcomes := by
  intro files
  induction files with
  | nil => intro s n _; rfl
  | cons f fs ih =>
      intro s n hall
      by_cases hext : allowedDate f.ext
      · simp only [dateRun, hext, if_true]
        obtain ⟨o, ho, -, -, -, -⟩ := dateStep_char env s f
        rw [ih _ n (fun g hg => hall g (List.mem_cons_of_mem f hg)), ho,
          alGet_append]
        cases halGet : alGet n s.outcomes with
        | none => simp [alGet, hall f (List.mem_cons_self f fs)]
        | some o2 => rfl
      · simp only [dateRun, hext, Bool.false_eq_true, if_false]
        exact ih _ n (fun g hg => hall g (List.mem_cons_of_mem f hg))

/-- Batch characterization of a date_sort run: exactly one outcome per
file with an allowed extension, in processing order; `duplicates` records
exactly the names with a duplicate outcome; the report counts exactly the
moved files; errored files touch neither accumulator. -/
theorem dateRun_char (env : DateEnv) :
    ∀ (files : List DFile) (s : DState),
      ∃ L : List (String × DOutcome),
        (dateRun env files s).1.outcomes = s.outcomes ++ L ∧
        L.map Prod.fst = (files.filter fun f => allowedDate f.ext).map (fun f => f.name) ∧
        (dateRun env files s).1.dups =
          s.dups ++ (L.filter fun pr => pr.2 = DOutcome.dup).map Prod.fst ∧
        sumPhotos (dateRun env files s).1.reports =
          sumPhotos s.reports + countMoved L := by
  intro files
  induction files with
  | nil =>
      intro s
      exact ⟨[], by simp [dateRun], by simp, by simp [dateRun], by simp [dateRun, countMoved]⟩
  | cons f fs ih =>
      intro s
      by_cases hext : allowedDate f.ext
      · obtain ⟨o, ho, hmv, hdup, hsum, -⟩ := dateStep_char env s f
        obtain ⟨L, hL1, hL2, hL3, hL4⟩ := ih (dateStep env s f).1
        refine ⟨(f.name, o) :: L, ?_, ?_, ?_, ?_⟩
        · simp only [dateRun, hext, if_true]
          rw [hL1, ho, List.append_assoc]
          rfl
        · simp [hL2, hext]
        · simp only [dateRun, hext, if_true]
          rw [hL3, hdup, List.append_assoc, List.filter_cons]
          by_cases ho2 : o = DOutcome.dup <;> simp [ho2]
        · simp only [dateRun, hext, if_true]
          rw [hL4, hsum]
          have : countMoved ((f.name, o) :: L) =
              (if o.isMoved then 1 else 0) + countMoved L := by
            simp only [countMoved, List.filter_cons]
            by_cases hm : o.isMoved
            · simp [hm]; omega
            · simp [hm]
          omega
      · obtain ⟨L, hL1, hL2, hL3, hL4⟩ := ih s
        refine ⟨L, ?_, ?_, ?_, ?_⟩
        · simpa [dateRun, hext] using hL1
        · simp [hL2, hext]
        · simpa [dateRun, hext] using hL3
        · simpa [dateRun, hext] using hL4

theorem hasName_iff (e : List (String × List Nat)) (n : String) :
    hasName e n = true ↔ ∃ c, (n, c) ∈ e := by
  simp only [hasName, List.any_eq_true, decide_eq_true_eq]
  constructor
  · rintro ⟨x, hx, hx1⟩
    exact ⟨x.2, by rwa [show (n, x.2) = x from Prod.ext hx1.symm rfl]⟩
  · rintro ⟨c, hc⟩
    exact ⟨(n, c), hc, rfl⟩

theorem dateStep_month_keeps_some (env : DateEnv) (s : DState) (f : DFile)
    (k : String) (e : List (String × List Nat)) (h : alGet k s.months = some e) :
    ∃ e2, alGet k (dateStep env s f).1.months = some e2 := by
  rcases dateStep_months_shape env s f with h1 | ⟨-, -, h1 | h1⟩ | ⟨e3, -, h1⟩
  · exact ⟨e, by rw [h1, h]⟩
  · exact ⟨e, by rw [h1, alGet_append, h]⟩
  · by_cases hk : carpetaOf env f = k
    · subst hk
      exact ⟨_, by rw [h1, alGet_alAppendVal_self]⟩
    · exact ⟨e, by rw [h1, alGet_alAppendVal_ne _ _ _ _ hk, alGet_append, h]⟩
  · by_cases hk : carpetaOf env f = k
    · subst hk
      exact ⟨_, by rw [h1, alGet_alAppendVal_self]⟩
    · exact ⟨e, by rw [h1, alGet_alAppendVal_ne _ _ _ _ hk]; exact h⟩

theorem dateRun_month_keeps_some (env : DateEnv) :
    ∀ (files : List DFile) (s : DState) (k : String)
      (e : List (String × List Nat)), alGet k s.months = some e →
      ∃ e2, alGet k (dateRun env files s).1.months = some e2 := by
  intro files
  induction files with
  | nil => intro s k e h; exact ⟨e, h⟩
  | cons f fs ih =>
      intro s k e h
      by_cases hext : allowedDate f.ext
      · simp only [dateRun, hext, if_true]
        obtain ⟨e2, h2⟩ := dateStep_month_keeps_some env s f k e h
        exact ih _ k e2 h2
      · simp only [dateRun, hext, Bool.false_eq_true, if_false]
        exact ih _ k e h

theorem countMoved_append (xs ys : List (String × DOutcome)) :
    countMoved (xs ++ ys) = countMoved xs + countMoved ys := by
  simp [countMoved, List.filter_append]

/-- A stuck file reproduces exactly its stuck outcome and changes nothing
but the accumulators. -/
theorem dateStep_stuck (env : DateEnv) (s : DState) (f : DFile)
    (h : stuckAt env s.months f = true) :
    dateStep env s f =
      ({ s with
          dups := s.dups ++ (if isDupCase env s.months f then [f.name] else []),
          outcomes := s.outcomes ++ [(f.name, stuckOutcome env s.months f)] },
        false) := by
  unfold stuckAt at h
  unfold stuckOutcome
  by_cases hdup : isDupCase env s.months f
  · simp only [hdup, if_true]
    have hmem : hasName (entryOf s.months (carpetaOf env f)) f.name = true := hdup
    cases halGet : alGet (carpetaOf env f) s.months with
    | none =>
        exfalso
        unfold entryOf at hmem
        rw [halGet] at hmem
        simp [hasName] at hmem
    | some entry =>
        have hentry : entryOf s.months (carpetaOf env f) = entry := by
          unfold entryOf; rw [halGet]; rfl
        rw [hentry] at hmem
        simp [dateStep, halGet, dateStepCore, hmem]
  · rw [if_neg hdup] at h ⊢
    cases halGet : alGet (carpetaOf env f) s.months with
    | none =>
        rw [halGet] at h
        simp only [Option.isNone_none, if_true] at h
        simp [dateStep, halGet, dateStepCore, h, hdup]
    | some entry =>
        rw [halGet] at h
        simp only [Option.isNone_some, Bool.false_eq_true, if_false] at h
        have hno : hasName entry f.name = false := by
          have : entryOf s.months (carpetaOf env f) = entry := by
            unfold entryOf; rw [halGet]; rfl
          unfold isDupCase at hdup
          rw [this] at hdup
          exact Bool.not_eq_true _ ▸ (by simpa using hdup)
        simp [dateStep, halGet, dateStepCore, hno, h, hdup]

/-- The stuck outcome is never a move. -/
theorem stuckOutcome_not_moved (env : DateEnv)
    (months : List (String × List (String × List Nat))) (f : DFile) :
    (stuckOutcome env months f).isMoved = false := by
  unfold stuckOutcome
  by_cases h1 : isDupCase env months f
  · simp [h1, DOutcome.isMoved]
  · by_cases h2 : (alGet (carpetaOf env f) months).isNone
    · simp [h1, h2, DOutcome.isMoved]
    · simp [h1, h2, DOutcome.isMoved]

/-- Running over files that are all stuck in the current month state
changes no month folder, moves nothing, skips every file again, and
reports as duplicates exactly the files whose name sits at their
destination. -/
theorem dateRun_stuck (env : DateEnv) :
    ∀ (files : List DFile) (s : DState),
      (∀ f ∈ files, allowedDate f.ext = true → stuckAt env s.months f = true) →
      (dateRun env files s).1.months = s.months ∧
      (dateRun env files s).2 = files ∧
      (dateRun env files s).1.dups = s.dups ++
        ((files.filter fun f => allowedDate f.ext && isDupCase env s.months f).map
          fun f => f.name) ∧
      countMoved (dateRun env files s).1.outcomes = countMoved s.outcomes := by
  intro files
  induction files with
  | nil => intro s _; exact ⟨rfl, rfl, by simp [dateRun], rfl⟩
  | cons f fs ih =>
      intro s hstuck
      by_cases hext : allowedDate f.ext
      · have hst := hstuck f (List.mem_cons_self f fs) hext
        have hstep := dateStep_stuck env s f hst
        simp only [dateRun, hext, if_true, hstep]
        set s2 : DState :=
          { s with
              dups := s.dups ++ (if isDupCase env s.months f then [f.name] else []),
              outcomes := s.outcomes ++ [(f.name, stuckOutcome env s.months f)] }
          with hs2
        have hstuck2 : ∀ g ∈ fs, allowedDate g.ext = true →
            stuckAt env s2.months g = true := fun g hg hga =>
          hstuck g (List.mem_cons_of_mem f hg) hga
        obtain ⟨ih1, ih2, ih3, ih4⟩ := ih s2 hstuck2
        refine ⟨ih1, by simp [ih2], ?_, ?_⟩
        · rw [ih3]
          have hd2 : s2.dups =
              s.dups ++ (if isDupCase env s.months f then [f.name] else []) := rfl
          rw [hd2]
          simp only [List.filter_cons, hext, Bool.true_and]
          by_cases hdup : isDupCase env s.months f
          · simp [hdup, List.append_assoc]
          · simp [hdup]
        · rw [ih4]
          have ho2 : s2.outcomes =
              s.outcomes ++ [(f.name, stuckOutcome env s.months f)] := rfl
          rw [ho2, countMoved_append]
          have : countMoved [(f.name, stuckOutcome env s.months f)] = 0 := by
            simp [countMoved, stuckOutcome_not_moved]
          omega
      · simp only [dateRun, hext, Bool.false_eq_true, if_false]
        obtain ⟨ih1, ih2, ih3, ih4⟩ := ih s
          (fun g hg hga => hstuck g (List.mem_cons_of_mem f hg) hga)
        refine ⟨ih1, by rw [ih2], ?_, ih4⟩
        rw [ih3]
        simp [List.filter_cons, hext]

/-- After a run, every file left behind is stuck in the final month
state, and the `duplicates` accumulator lists exactly the left-behind
files whose name sits at their destination, in order. -/
theorem dateRun_rem_stuck (env : DateEnv) :
    ∀ (files : List DFile) (s : DState),
      (files.map fun f => f.name).Nodup →
      (∀ f ∈ (dateRun env files s).2, allowedDate f.ext = true →
        stuckAt env (dateRun env files s).1.months f = true) ∧
      (dateRun env files s).1.dups = s.dups ++
        (((dateRun env files s).2.filter fun f =>
            allowedDate f.ext && isDupCase env (dateRun env files s).1.months f).map
          fun f => f.name) := by
  intro files
  induction files with
  | nil =>
      intro s _
      refine ⟨?_, ?_⟩
      · intro f hf; cases hf
      · simp [dateRun]
  | cons f0 fs ih =>
      intro s hnd
      have hnd2 : (fs.map fun f => f.name).Nodup := (List.nodup_cons.mp hnd).2
      have hf0name : f0.name ∉ fs.map fun f => f.name := (List.nodup_cons.mp hnd).1
      have hfs_ne : ∀ g ∈ fs, g.name ≠ f0.name := by
        intro g hg he
        exact hf0name (he ▸ List.mem_map_of_mem _ hg)
      by_cases hext : allowedDate f0.ext
      · -- case split on the branch the step takes
        simp only [dateRun, hext, if_true]
        cases halGet : alGet (carpetaOf env f0) s.months with
        | none =>
            by_cases hmk : env.mkdirFails (carpetaOf env f0)
            · -- mkdir failure: f0 stays, its month folder never appears
              have hS1 : (dateStep env s f0).1 =
                  { s with outcomes := s.outcomes ++ [(f0.name, .mkdirErr)] } := by
                simp [dateStep, halGet, hmk]
              have hS2 : (dateStep env s f0).2 = false := by
                simp [dateStep, halGet, hmk]
              rw [hS1, hS2]
              simp only [Bool.false_eq_true, if_false]
              obtain ⟨ihs, ihd⟩ := ih
                { s with outcomes := s.outcomes ++ [(f0.name, .mkdirErr)] } hnd2
              have hnone : alGet (carpetaOf env f0)
                  (dateRun env fs { s with
                    outcomes := s.outcomes ++ [(f0.name, .mkdirErr)] }).1.months = none :=
                dateRun_month_keeps_none env fs _ _ hmk halGet
              have hdupf : isDupCase env
                  (dateRun env fs { s with
                    outcomes := s.outcomes ++ [(f0.name, .mkdirErr)] }).1.months f0 = false := by
                unfold isDupCase entryOf
                rw [hnone]
                simp [hasName]
              refine ⟨?_, ?_⟩
              · intro f hf hfa
                rcases List.mem_cons.mp hf with rfl | hf2
                · unfold stuckAt
                  rw [hdupf, if_neg (by simp), hnone]
                  simpa using hmk
                · exact ihs f hf2 hfa
              · rw [ihd]
                simp [List.filter_cons, hext, hdupf]
            · -- folder freshly created; duplicate check against the empty listing
              by_cases hmf : env.moveFails (carpetaOf env f0) f0.name
              · -- move failure: f0 stays, folder exists, name never lands there
                have hS1 : (dateStep env s f0).1 =
                    { s with months := s.months ++ [(carpetaOf env f0, [])],
                             outcomes := s.outcomes ++ [(f0.name, .moveErr)] } := by
                  simp [dateStep, halGet, hmk, dateStepCore, hasName, hmf]
                have hS2 : (dateStep env s f0).2 = false := by
                  simp [dateStep, halGet, hmk, dateStepCore, hasName, hmf]
                rw [hS1, hS2]
                simp only [Bool.false_eq_true, if_false]
                set s2 : DState :=
                  { s with months := s.months ++ [(carpetaOf env f0, [])],
                           outcomes := s.outcomes ++ [(f0.name, .moveErr)] } with hs2
                obtain ⟨ihs, ihd⟩ := ih s2 hnd2
                have hsome2 : alGet (carpetaOf env f0) s2.months = some [] := by
                  rw [hs2]
                  simp only
                  rw [alGet_append, halGet]
                  simp [alGet]
                obtain ⟨e2, hsome⟩ := dateRun_month_keeps_some env fs s2 _ _ hsome2
                have hnoname : hasName
                    (entryOf (dateRun env fs s2).1.months (carpetaOf env f0)) f0.name
                    = false := by
                  refine dateRun_no_name_add env fs s2 _ _ ?_ hfs_ne
                  unfold entryOf
                  rw [hsome2]
                  simp [hasName]
                have hdupf : isDupCase env (dateRun env fs s2).1.months f0 = false := by
                  unfold isDupCase
                  exact hnoname
                refine ⟨?_, ?_⟩
                · intro f hf hfa
                  rcases List.mem_cons.mp hf with rfl | hf2
                  · unfold stuckAt
                    rw [hdupf, if_neg (by simp), hsome]
                    simpa using hmf
                  · exact ihs f hf2 hfa
                · rw [ihd]
                  simp [List.filter_cons, hext, hdupf]
              · -- the move succeeds: f0 leaves the folder
                have hS1 : (dateStep env s f0).1 =
                    { s with
                        months := alAppendVal (carpetaOf env f0) (f0.name, f0.content)
                          (s.months ++ [(carpetaOf env f0, [])]),
                        reports := reportAdd (carpetaOf env f0) f0.content.length
                          (strLower f0.ext) s.reports,
                        outcomes := s.outcomes ++ [(f0.name, .moved (carpetaOf env f0))] } := by
                  simp [dateStep, halGet, hmk, dateStepCore, hasName, hmf]
                have hS2 : (dateStep env s f0).2 = true := by
                  simp [dateStep, halGet, hmk, dateStepCore, hasName, hmf]
                rw [hS1, hS2]
                simp only [if_true]
                obtain ⟨ihs, ihd⟩ := ih _ hnd2
                exact ⟨ihs, ihd⟩
        | some entry =>
            by_cases hdup0 : hasName entry f0.name
            · -- name collision at the destination: recorded duplicate
              have hS1 : (dateStep env s f0).1 =
                  { s with dups := s.dups ++ [f0.name],
                           outcomes := s.outcomes ++ [(f0.name, .dup)] } := by
                simp [dateStep, halGet, dateStepCore, hdup0]
              have hS2 : (dateStep env s f0).2 = false := by
                simp [dateStep, halGet, dateStepCore, hdup0]
              rw [hS1, hS2]
              simp only [Bool.false_eq_true, if_false]
              set s2 : DState :=
                { s with dups := s.dups ++ [f0.name],
                         outcomes := s.outcomes ++ [(f0.name, .dup)] } with hs2
              obtain ⟨ihs, ihd⟩ := ih s2 hnd2
              have hdupf : isDupCase env (dateRun env fs s2).1.months f0 = true := by
                unfold isDupCase
                obtain ⟨c, hc⟩ := (hasName_iff entry f0.name).mp hdup0
                have hc2 : (f0.name, c) ∈ entryOf s2.months (carpetaOf env f0) := by
                  have : entryOf s2.months (carpetaOf env f0) = entry := by
                    unfold entryOf
                    rw [show s2.months = s.months from rfl, halGet]
                    rfl
                  rw [this]
                  exact hc
                exact (hasName_iff _ _).mpr
                  ⟨c, dateRun_month_pair_mono env fs s2 _ _ hc2⟩
              refine ⟨?_, ?_⟩
              · intro f hf hfa
                rcases List.mem_cons.mp hf with rfl | hf2
                · unfold stuckAt
                  rw [hdupf]
                  rfl
                · exact ihs f hf2 hfa
              · rw [ihd]
                simp [List.filter_cons, hext, hdupf, List.append_assoc]
            · by_cases hmf : env.moveFails (carpetaOf env f0) f0.name
              · -- move failure: f0 stays, folder exists, name never lands
                have hS1 : (dateStep env s f0).1 =
                    { s with outcomes := s.outcomes ++ [(f0.name, .moveErr)] } := by
                  simp [dateStep, halGet, dateStepCore, hdup0, hmf]
                have hS2 : (dateStep env s f0).2 = false := by
                  simp [dateStep, halGet, dateStepCore, hdup0, hmf]
                rw [hS1, hS2]
                simp only [Bool.false_eq_true, if_false]
                set s2 : DState :=
                  { s with outcomes := s.outcomes ++ [(f0.name, .moveErr)] } with hs2
                obtain ⟨ihs, ihd⟩ := ih s2 hnd2
                have hsome2 : alGet (carpetaOf env f0) s2.months = some entry :=
                  halGet
                obtain ⟨e2, hsome⟩ := dateRun_month_keeps_some env fs s2 _ _ hsome2
                have hnoname : hasName
                    (entryOf (dateRun env fs s2).1.months (carpetaOf env f0)) f0.name
                    = false := by
                  refine dateRun_no_name_add env fs s2 _ _ ?_ hfs_ne
                  unfold entryOf
                  rw [hsome2]
                  simpa using hdup0
                have hdupf : isDupCase env (dateRun env fs s2).1.months f0 = false :=
                  hnoname
                refine ⟨?_, ?_⟩
                · intro f hf hfa
                  rcases List.mem_cons.mp hf with rfl | hf2
                  · unfold stuckAt
                    rw [hdupf, if_neg (by simp), hsome]
                    simpa using hmf
                  · exact ihs f hf2 hfa
                · rw [ihd]
                  simp [List.filter_cons, hext, hdupf]
              · -- the move succeeds: f0 leaves the folder
                have hS1 : (dateStep env s f0).1 =
                    { s with
                        months := alAppendVal (carpetaOf env f0) (f0.name, f0.content)
                          s.months,
                        reports := reportAdd (carpetaOf env f0) f0.content.length
                          (strLower f0.ext) s.reports,
                        outcomes := s.outcomes ++
                          [(f0.name, .moved (carpetaOf env f0))] } := by
                  simp [dateStep, halGet, dateStepCore, hdup0, hmf]
                have hS2 : (dateStep env s f0).2 = true := by
                  simp [dateStep, halGet, dateStepCore, hdup0, hmf]
                rw [hS1, hS2]
                simp only [if_true]
                obtain ⟨ihs, ihd⟩ := ih _ hnd2
                exact ⟨ihs, ihd⟩
      · -- extension not allowed: f0 is skipped and stays
        simp only [dateRun, hext, Bool.false_eq_true, if_false]
        obtain ⟨ihs, ihd⟩ := ih s hnd2
        refine ⟨?_, ?_⟩
        · intro f hf hfa
          rcases List.mem_cons.mp hf with rfl | hf2
          · exact absurd hfa hext
          · exact ihs f hf2 hfa
        · simp only [List.filter_cons, hext, Bool.false_and, if_false]
          exact ihd

theorem pad2_length_two (m : Nat) (h1 : 1 ≤ m) (h2 : m ≤ 12) :
    (pad2 m).length = 2 := by
  interval_cases m <;> decide

theorem ajustar_month_bounds (f : DateTime) (hm1 : 1 ≤ f.month)
    (hm2 : f.month ≤ 12) :
    1 ≤ (ajustar_mes_por_horario_especial f).month ∧
      (ajustar_mes_por_horario_especial f).month ≤ 12 := by
  unfold ajustar_mes_por_horario_especial minusOneDay
  by_cases hc : f.day = 1 ∧ f.hour < 8
  · rw [if_pos hc]
    by_cases hd : 1 < f.day
    · rw [if_pos hd]; exact ⟨hm1, hm2⟩
    · rw [if_neg hd]
      by_cases hm : 1 < f.month
      · rw [if_pos hm]; constructor <;> simp <;> omega
      · rw [if_neg hm]; exact ⟨by norm_num, by norm_num⟩
  · rw [if_neg hc]; exact ⟨hm1, hm2⟩

/-- Per-file fate in a date_sort run: an unprocessed or non-moved file is
still in the camera folder afterwards, unchanged; a moved file is gone
from it and its name-content pair is present under its destination month
folder. -/
theorem dateRun_fate (env : DateEnv) :
    ∀ (files : List DFile) (s : DState),
      (files.map fun f => f.name).Nodup →
      (∀ g ∈ files, alGet g.name s.outcomes = none) →
      ∀ f ∈ files,
        (allowedDate f.ext = false → f ∈ (dateRun env files s).2) ∧
        (∀ k, alGet f.name (dateRun env files s).1.outcomes = some (.moved k) →
          (f.name, f.content) ∈ entryOf (dateRun env files s).1.months k ∧
          ∀ g ∈ (dateRun env files s).2, g.name ≠ f.name) ∧
        (∀ o, alGet f.name (dateRun env files s).1.outcomes = some o →
          o.isMoved = false → f ∈ (dateRun env files s).2) := by
  intro files
  induction files with
  | nil => intro s _ _ f hf; cases hf
  | cons f0 fs ih =>
      intro s hnd hfresh f hf
      have hnd2 : (fs.map fun f => f.name).Nodup := (List.nodup_cons.mp hnd).2
      have hf0name : f0.name ∉ fs.map fun f => f.name := (List.nodup_cons.mp hnd).1
      have hfs_ne : ∀ g ∈ fs, g.name ≠ f0.name := by
        intro g hg he
        exact hf0name (he ▸ List.mem_map_of_mem _ hg)
      by_cases hext : allowedDate f0.ext
      · obtain ⟨o0, ho, hmv, -, -, hpairs⟩ := dateStep_char env s f0
        have hfresh2 : ∀ g ∈ fs, alGet g.name (dateStep env s f0).1.outcomes = none := by
          intro g hg
          have hne : f0.name ≠ g.name := fun he => (hfs_ne g hg) he.symm
          rw [ho, alGet_append, hfresh g (List.mem_cons_of_mem f0 hg)]
          simp [alGet, hne]
        rcases List.mem_cons.mp hf with rfl | hfmem
        · -- the head file itself
          have hout : alGet f.name (dateRun env fs (dateStep env s f).1).1.outcomes
              = some o0 := by
            rw [dateRun_outcomes_frozen env fs _ f.name hfs_ne, ho, alGet_append,
              hfresh f (List.mem_cons_self f fs)]
            simp [alGet]
          refine ⟨?_, ?_, ?_⟩
          · intro hcon
            rw [hext] at hcon
            cases hcon
          · intro k hk
            simp only [dateRun, hext, if_true] at hk ⊢
            rw [hout] at hk
            have ho2 : o0 = .moved k := Option.some.inj hk
            obtain ⟨-, hpair⟩ := hpairs k ho2
            constructor
            · exact dateRun_month_pair_mono env fs _ k _ hpair
            · intro g hg
              have hmvd : (dateStep env s f).2 = true := by
                rw [hmv, ho2]; rfl
              rw [if_pos hmvd] at hg
              exact hfs_ne g (dateRun_rem_sub env fs _ g hg)
          · intro o hko hnm
            simp only [dateRun, hext, if_true] at hko ⊢
            rw [hout] at hko
            have ho2 : o0 = o := Option.some.inj hko
            have hmvd : (dateStep env s f).2 = false := by rw [hmv, ho2, hnm]
            rw [if_neg (by rw [hmvd]; exact Bool.false_ne_true)]
            exact List.mem_cons_self f _
        · -- a later file in the snapshot
          have IH := ih (dateStep env s f0).1 hnd2 hfresh2 f hfmem
          have hname_ne : f.name ≠ f0.name := hfs_ne f hfmem
          refine ⟨?_, ?_, ?_⟩
          · intro hcon
            simp only [dateRun, hext, if_true]
            by_cases hb : (dateStep env s f0).2
            · rw [if_pos hb]; exact IH.1 hcon
            · rw [if_neg hb]; exact List.mem_cons_of_mem f0 (IH.1 hcon)
          · intro k hk
            simp only [dateRun, hext, if_true] at hk ⊢
            obtain ⟨hp, hrem⟩ := IH.2.1 k hk
            refine ⟨hp, ?_⟩
            intro g hg
            by_cases hb : (dateStep env s f0).2
            · rw [if_pos hb] at hg; exact hrem g hg
            · rw [if_neg hb] at hg
              rcases List.mem_cons.mp hg with rfl | hg2
              · exact fun he => hname_ne he.symm
              · exact hrem g hg2
          · intro o hko hnm
            simp only [dateRun, hext, if_true] at hko ⊢
            have := IH.2.2 o hko hnm
            by_cases hb : (dateStep env s f0).2
            · rw [if_pos hb]; exact this
            · rw [if_neg hb]; exact List.mem_cons_of_mem f0 this
      · -- head file skipped for its extension
        rcases List.mem_cons.mp hf with rfl | hfmem
        · have hout : alGet f.name (dateRun env fs s).1.outcomes = none := by
            rw [dateRun_outcomes_frozen env fs s f.name hfs_ne]
            exact hfresh f (List.mem_cons_self f fs)
          refine ⟨?_, ?_, ?_⟩
          · intro _
            simp only [dateRun, hext, Bool.false_eq_true, if_false]
            exact List.mem_cons_self f _
          · intro k hk
            simp only [dateRun, hext, Bool.false_eq_true, if_false] at hk
            rw [hout] at hk
            cases hk
          · intro o hko _
            simp only [dateRun, hext, Bool.false_eq_true, if_false] at hko ⊢
            rw [hout] at hko
            cases hko
        · have IH := ih s hnd2
            (fun g hg => hfresh g (List.mem_cons_of_mem f0 hg)) f hfmem
          have hname_ne : f.name ≠ f0.name := hfs_ne f hfmem
          refine ⟨?_, ?_, ?_⟩
          · intro hcon
            simp only [dateRun, hext, Bool.false_eq_true, if_false]
            exact List.mem_cons_of_mem f0 (IH.1 hcon)
          · intro k hk
            simp only [dateRun, hext, Bool.false_eq_true, if_false] at hk ⊢
            obtain ⟨hp, hrem⟩ := IH.2.1 k hk
            refine ⟨hp, ?_⟩
            intro g hg
            rcases List.mem_cons.mp hg with rfl | hg2
            · exact fun he => hname_ne he.symm
            · exact hrem g hg2
          · intro o hko hnm
            simp only [dateRun, hext, Bool.false_eq_true, if_false] at hko ⊢
            exact List.mem_cons_of_mem f0 (IH.2.2 o hko hnm)

/-! ### Claim theorems (date side) -/

/-- C9: for every capture datetime with day 1 and hour before 8 the
destination month folder is computed from the datetime minus one day —
landing in the previous month (December of the previous year for
January) — and any other datetime is used unchanged; the folder name is
`YYYY.MM` with a zero-padded two-digit month. -/
theorem claim_C9 (f : DateTime) (hm1 : 1 ≤ f.month) (hm2 : f.month ≤ 12) :
    ((f.day = 1 ∧ f.hour < 8) →
      ajustar_mes_por_horario_especial f = minusOneDay f ∧
      (f.month = 1 → (ajustar_mes_por_horario_especial f).month = 12 ∧
        (ajustar_mes_por_horario_especial f).year = f.year - 1) ∧
      (2 ≤ f.month → (ajustar_mes_por_horario_especial f).month = f.month - 1 ∧
        (ajustar_mes_por_horario_especial f).year = f.year)) ∧
    (¬(f.day = 1 ∧ f.hour < 8) → ajustar_mes_por_horario_especial f = f) ∧
    generar_nombre_carpeta (ajustar_mes_por_horario_especial f) =
      toString (ajustar_mes_por_horario_especial f).year ++ "." ++
        pad2 (ajustar_mes_por_horario_especial f).month ∧
    (pad2 (ajustar_mes_por_horario_especial f).month).length = 2 := by
  refine ⟨?_, ?_, rfl, ?_⟩
  · intro hc
    have he : ajustar_mes_por_horario_especial f = minusOneDay f := by
      unfold ajustar_mes_por_horario_especial
      rw [if_pos hc]
    refine ⟨he, ?_, ?_⟩
    · intro hm
      rw [he]
      unfold minusOneDay
      rw [if_neg (by omega : ¬ 1 < f.day), if_neg (by omega : ¬ 1 < f.month)]
      exact ⟨rfl, rfl⟩
    · intro hm
      rw [he]
      unfold minusOneDay
      rw [if_neg (by omega : ¬ 1 < f.day), if_pos (by omega : 1 < f.month)]
      exact ⟨rfl, rfl⟩
  · intro hc
    unfold ajustar_mes_por_horario_especial
    rw [if_neg hc]
  · obtain ⟨h1, h2⟩ := ajustar_month_bounds f hm1 hm2
    exact pad2_length_two _ h1 h2

/-- Witness for C9 at March 1, 02:00: the night-shift rule fires and the
file is filed under February. -/
theorem claim_C9_witness :
    ajustar_mes_por_horario_especial ⟨2024, 3, 1, 2⟩ = minusOneDay ⟨2024, 3, 1, 2⟩ ∧
    (ajustar_mes_por_horario_especial ⟨2024, 3, 1, 2⟩).month = 2 ∧
    (pad2 (ajustar_mes_por_horario_especial ⟨2024, 3, 1, 2⟩).month).length = 2 := by
  have h := claim_C9 ⟨2024, 3, 1, 2⟩ (by decide) (by decide)
  obtain ⟨h1, -, -, hlen⟩ := h
  obtain ⟨ha, -, hc⟩ := h1 (by decide)
  exact ⟨ha, (hc (by decide)).1, hlen⟩

/-- C10: the capture-date lookup of date_sort v1.2 is total — EXIF date,
else filesystem creation time, else modification time, else the current
clock — and therefore every file with an allowed extension receives an
outcome aimed at some month folder; no file is skipped for lack of a
date. -/
theorem claim_C10 (now : DateTime) (m : FileMeta) (env : DateEnv)
    (ms : List (String × List (String × List Nat)))
    (files : List DFile) (f : DFile) (hf : f ∈ files)
    (hext : allowedDate f.ext = true) :
    (∀ d, m.exifDate = some d → obtener_fecha_captura now m = d) ∧
    (m.exifDate = none → ∀ d, m.ctime = some d → obtener_fecha_captura now m = d) ∧
    (m.exifDate = none → m.ctime = none → ∀ d, m.mtime = some d →
      obtener_fecha_captura now m = d) ∧
    (m.exifDate = none → m.ctime = none → m.mtime = none →
      obtener_fecha_captura now m = now) ∧
    (∀ s : DState, ∃ o : DOutcome,
      (dateStep env s f).1.outcomes = s.outcomes ++ [(f.name, o)] ∧
      (o = .dup ∨ o = .mkdirErr ∨ o = .moveErr ∨ o = .moved (carpetaOf env f))) ∧
    (∃ o : DOutcome, (f.name, o) ∈ (dateRun env files ⟨ms, [], [], []⟩).1.outcomes) := by
  refine ⟨?_, ?_, ?_, ?_, ?_, ?_⟩
  · intro d hd
    unfold obtener_fecha_captura
    rw [hd]
  · intro h1 d hd
    unfold obtener_fecha_captura
    rw [h1, hd]
  · intro h1 h2 d hd
    unfold obtener_fecha_captura
    rw [h1, h2, hd]
  · intro h1 h2 h3
    unfold obtener_fecha_captura
    rw [h1, h2, h3]
  · intro s
    obtain ⟨o, ho, -, -, -, hpairs⟩ := dateStep_char env s f
    refine ⟨o, ho, ?_⟩
    cases o with
    | dup => exact Or.inl rfl
    | mkdirErr => exact Or.inr (Or.inl rfl)
    | moveErr => exact Or.inr (Or.inr (Or.inl rfl))
    | moved k =>
        obtain ⟨hk, -⟩ := hpairs k rfl
        exact Or.inr (Or.inr (Or.inr (by rw [hk])))
  · obtain ⟨L, hL1, hL2, -, -⟩ := dateRun_char env files ⟨ms, [], [], []⟩
    have hmem : f.name ∈ L.map Prod.fst := by
      rw [hL2]
      exact List.mem_map_of_mem _ (List.mem_filter.mpr ⟨hf, hext⟩)
    obtain ⟨pr, hpr, hpr1⟩ := List.mem_map.mp hmem
    refine ⟨pr.2, ?_⟩
    rw [hL1]
    have : (f.name, pr.2) = pr := Prod.ext hpr1.symm rfl
    rw [this]
    exact List.mem_append_right _ hpr

/-- Witness for C10: a single allowed-extension file with no EXIF date
and no filesystem dates still gets an outcome. -/
theorem claim_C10_witness :
    obtener_fecha_captura ⟨2025, 1, 2, 3⟩ ⟨none, none, none⟩ = ⟨2025, 1, 2, 3⟩ ∧
    (∃ o : DOutcome, ("IMG_1.JPG", o) ∈
      (dateRun ⟨⟨2025, 1, 2, 3⟩, fun _ => false, fun _ _ => false⟩
        [⟨"IMG_1.JPG", ".jpg", ⟨none, none, none⟩, [7]⟩]
        ⟨[], [], [], []⟩).1.outcomes) := by
  have h := claim_C10 ⟨2025, 1, 2, 3⟩ ⟨none, none, none⟩
    ⟨⟨2025, 1, 2, 3⟩, fun _ => false, fun _ _ => false⟩ []
    [⟨"IMG_1.JPG", ".jpg", ⟨none, none, none⟩, [7]⟩]
    ⟨"IMG_1.JPG", ".jpg", ⟨none, none, none⟩, [7]⟩
    (List.mem_singleton_self _) (by decide)
  exact ⟨h.2.2.2.1 rfl rfl rfl, h.2.2.2.2.2⟩

/-- C4 counterexample: a same-named destination file with different
content is skipped as a plain duplicate — the code never compares the
contents and has no distinct conflict outcome.  Destination holds
`IMG_1.JPG` with bytes `[1]`, the source `IMG_1.JPG` has bytes `[2]`,
and the outcome is `dup`, exactly as for a byte-identical source, while
both files stay on disk. -/
theorem claim_C4_cex :
    (dateStep exEnv exStateDup exF2).1.outcomes = [("IMG_1.JPG", DOutcome.dup)] ∧
    (dateStep exEnv exStateDup exF1).1.outcomes = [("IMG_1.JPG", DOutcome.dup)] ∧
    exF2.content ≠ [1] ∧ exF1.content = [1] ∧
    (dateStep exEnv exStateDup exF2).1.months = exStateDup.months ∧
    (dateStep exEnv exStateDup exF2).2 = false := by
  refine ⟨by decide, by decide, by decide, by decide, by decide, by decide⟩

/-- C4 amended: whenever a file with the same name already exists at the
destination month folder, the file is skipped and recorded as a
duplicate without any content comparison — there is no distinct conflict
outcome — and the filesystem is left unchanged, so both files are
retained. -/
theorem claim_C4 (env : DateEnv) (s : DState) (f : DFile)
    (h : hasName (entryOf s.months (carpetaOf env f)) f.name = true) :
    dateStep env s f =
      ({ s with dups := s.dups ++ [f.name],
                outcomes := s.outcomes ++ [(f.name, DOutcome.dup)] }, false) := by
  have hstuck : stuckAt env s.months f = true := by
    unfold stuckAt isDupCase
    rw [h]
    rfl
  have hd : isDupCase env s.months f = true := h
  have := dateStep_stuck env s f hstuck
  rw [this]
  unfold stuckOutcome
  rw [hd]
  simp

/-- C5 counterexample: a caught per-file move failure leaves no trace in
the final report accumulators — the file appears in neither
`folders_report` nor `duplicates`, only in the log — so its fate is
silently dropped from the final report. -/
theorem claim_C5_cex :
    (dateRun exEnvMF [exF1] ⟨[], [], [], []⟩).1.outcomes =
      [("IMG_1.JPG", DOutcome.moveErr)] ∧
    (dateRun exEnvMF [exF1] ⟨[], [], [], []⟩).1.dups = [] ∧
    (dateRun exEnvMF [exF1] ⟨[], [], [], []⟩).1.reports = [] ∧
    (dateRun exEnvMF [exF1] ⟨[], [], [], []⟩).2 = [exF1] := by
  refine ⟨by decide, by decide, by decide, by decide⟩

/-- C5 amended: per-file destination-creation and move errors in the date
sorter are caught and the batch always runs to completion with exactly
one outcome per allowed-extension file, in order; the `duplicates`
accumulator records exactly the duplicate outcomes and the report counts
exactly the moved files — so a file with an error outcome appears in
neither, and is reported only in the log. -/
theorem claim_C5 (env : DateEnv) (files : List DFile)
    (ms : List (String × List (String × List Nat)))
    (hnd : (files.map fun f => f.name).Nodup) :
    ∃ L : List (String × DOutcome),
      (dateRun env files ⟨ms, [], [], []⟩).1.outcomes = L ∧
      L.map Prod.fst = (files.filter fun f => allowedDate f.ext).map (fun f => f.name) ∧
      (dateRun env files ⟨ms, [], [], []⟩).1.dups =
        (L.filter fun pr => pr.2 = DOutcome.dup).map Prod.fst ∧
      sumPhotos (dateRun env files ⟨ms, [], [], []⟩).1.reports = countMoved L ∧
      (∀ n o, (n, o) ∈ L → o = DOutcome.mkdirErr ∨ o = DOutcome.moveErr →
        n ∉ (dateRun env files ⟨ms, [], [], []⟩).1.dups) := by
  obtain ⟨L, hL1, hL2, hL3, hL4⟩ := dateRun_char env files ⟨ms, [], [], []⟩
  have hout : (dateRun env files ⟨ms, [], [], []⟩).1.outcomes = L := by
    rw [hL1]; rfl
  have hdups : (dateRun env files ⟨ms, [], [], []⟩).1.dups =
      (L.filter fun pr => pr.2 = DOutcome.dup).map Prod.fst := by
    rw [hL3]; rfl
  have hsum : sumPhotos (dateRun env files ⟨ms, [], [], []⟩).1.reports = countMoved L := by
    rw [hL4]; simp [sumPhotos]
  refine ⟨L, hout, hL2, hdups, hsum, ?_⟩
  intro n o hno herr hmem
  have hLnd : (L.map Prod.fst).Nodup := by
    rw [hL2]
    exact ((List.filter_sublist files).map fun f => f.name).nodup hnd
  rw [hdups] at hmem
  obtain ⟨pr, hpr, hpr1⟩ := List.mem_map.mp hmem
  have hprL : pr ∈ L := List.mem_of_mem_filter hpr
  have hprdup : pr.2 = DOutcome.dup := by
    have := List.of_mem_filter hpr
    exact of_decide_eq_true this
  have heq : (n, o) = pr :=
    List.inj_on_of_nodup_map hLnd hno hprL (by rw [hpr1])
  rcases herr with h | h <;>
    (rw [← heq] at hprdup; rw [h] at hprdup; cases hprdup)

/-- Witness for C5: a benign two-file run where one file moves and one is
skipped as a duplicate (same name, same month). -/
theorem claim_C5_witness :
    ∃ L : List (String × DOutcome),
      (dateRun exEnv [exF1] ⟨[], [], [], []⟩).1.outcomes = L ∧
      L.map Prod.fst = ([exF1].filter fun f =>
        allowedDate f.ext).map (fun f => f.name) ∧
      (dateRun exEnv [exF1] ⟨[], [], [], []⟩).1.dups =
        (L.filter fun pr => pr.2 = DOutcome.dup).map Prod.fst ∧
      sumPhotos (dateRun exEnv [exF1] ⟨[], [], [], []⟩).1.reports = countMoved L ∧
      (∀ n o, (n, o) ∈ L → o = DOutcome.mkdirErr ∨ o = DOutcome.moveErr →
        n ∉ (dateRun exEnv [exF1] ⟨[], [], [], []⟩).1.dups) :=
  claim_C5 exEnv [exF1] [] (by decide)

/-- C6 counterexample: after a first run that moved one file, the second
run over the same tree yields zero `DUPLICATE_SKIPPED` outcomes, not one
per previously moved file — the moved file now sits inside the month
folder and is no longer enumerated at the camera-folder top level. -/
theorem claim_C6_cex :
    countMoved (dateRun exEnv [exF1] ⟨[], [], [], []⟩).1.outcomes = 1 ∧
    (dateRun exEnv [exF1] ⟨[], [], [], []⟩).2 = [] ∧
    (dateRun exEnv (dateRun exEnv [exF1] ⟨[], [], [], []⟩).2
        ⟨(dateRun exEnv [exF1] ⟨[], [], [], []⟩).1.months, [], [], []⟩).1.dups = [] ∧
    ((dateRun exEnv (dateRun exEnv [exF1] ⟨[], [], [], []⟩).2
        ⟨(dateRun exEnv [exF1] ⟨[], [], [], []⟩).1.months, [], [], []⟩).1.dups).length ≠
      countMoved (dateRun exEnv [exF1] ⟨[], [], [], []⟩).1.outcomes := by
  refine ⟨by decide, by decide, by decide, by decide⟩

/-- C6 amended: a second run over the tree a first run leaves behind
moves nothing and changes nothing — it reports exactly the same
duplicate list as the first run (not one duplicate per file moved first
time), because moved files are inside the month folders and no longer
enumerated, while the files skipped the first time are re-checked fresh
against the destination and skipped again.  -/
theorem claim_C6 (env : DateEnv) (files : List DFile)
    (ms : List (String × List (String × List Nat)))
    (hnd : (files.map fun f => f.name).Nodup) :
    countMoved (dateRun env (dateRun env files ⟨ms, [], [], []⟩).2
      ⟨(dateRun env files ⟨ms, [], [], []⟩).1.months, [], [], []⟩).1.outcomes = 0 ∧
    (dateRun env (dateRun env files ⟨ms, [], [], []⟩).2
      ⟨(dateRun env files ⟨ms, [], [], []⟩).1.months, [], [], []⟩).1.dups =
      (dateRun env files ⟨ms, [], [], []⟩).1.dups ∧
    (dateRun env (dateRun env files ⟨ms, [], [], []⟩).2
      ⟨(dateRun env files ⟨ms, [], [], []⟩).1.months, [], [], []⟩).2 =
      (dateRun env files ⟨ms, [], [], []⟩).2 ∧
    (dateRun env (dateRun env files ⟨ms, [], [], []⟩).2
      ⟨(dateRun env files ⟨ms, [], [], []⟩).1.months, [], [], []⟩).1.months =
      (dateRun env files ⟨ms, [], [], []⟩).1.months := by
  obtain ⟨hstuckAll, hdups1⟩ := dateRun_rem_stuck env files ⟨ms, [], [], []⟩ hnd
  obtain ⟨hm, hrem, hdups2, hcount⟩ :=
    dateRun_stuck env (dateRun env files ⟨ms, [], [], []⟩).2
      ⟨(dateRun env files ⟨ms, [], [], []⟩).1.months, [], [], []⟩ hstuckAll
  refine ⟨?_, ?_, hrem, hm⟩
  · rw [hcount]; rfl
  · rw [hdups2, hdups1]

/-- Witness for C6: the duplicate-skipped file of the first run is
skipped again by the second run, and nothing moves. -/
theorem claim_C6_witness :
    countMoved (dateRun exEnv (dateRun exEnv [exF1] ⟨[], [], [], []⟩).2
      ⟨(dateRun exEnv [exF1] ⟨[], [], [], []⟩).1.months, [], [], []⟩).1.outcomes = 0 ∧
    (dateRun exEnv (dateRun exEnv [exF1] ⟨[], [], [], []⟩).2
      ⟨(dateRun exEnv [exF1] ⟨[], [], [], []⟩).1.months, [], [], []⟩).1.dups =
      (dateRun exEnv [exF1] ⟨[], [], [], []⟩).1.dups := by
  have h := claim_C6 exEnv [exF1] [] (by decide)
  exact ⟨h.1, h.2.1⟩

/-- Witness for C4 at the counterexample input: the duplicate branch
fires and the state keeps both files. -/
theorem claim_C4_witness :
    (dateStep exEnv exStateDup exF2).1.dups = ["IMG_1.JPG"] ∧
    (dateStep exEnv exStateDup exF2).2 = false := by
  have h := claim_C4 exEnv exStateDup exF2 (by decide)
  rw [h]
  exact ⟨rfl, rfl⟩

/-! ### Lemmas about the model_sort run -/

theorem mem_alSet_self {K V : Type} [DecidableEq K] (k : K) (v : V) :
    ∀ l : List (K × V), (k, v) ∈ alSet k v l := by
  intro l
  induction l with
  | nil => exact List.mem_singleton_self _
  | cons p rest ih =>
      unfold alSet
      by_cases h : p.1 = k
      · rw [if_pos h, h]
        exact List.mem_cons_self _ _
      · rw [if_neg h]
        exact List.mem_cons_of_mem _ ih

theorem mem_alSet_of_ne {K V : Type} [DecidableEq K] (k2 : K) (v2 : V)
    (k : K) (v : V) (hne : k ≠ k2) :
    ∀ l : List (K × V), (k, v) ∈ l → (k, v) ∈ alSet k2 v2 l := by
  intro l
  induction l with
  | nil => intro h; cases h
  | cons p rest ih =>
      intro h
      unfold alSet
      rcases List.mem_cons.mp h with heq | hmem
      · by_cases h3 : p.1 = k2
        · exact absurd (by rw [← heq] at h3; exact h3) hne
        · rw [if_neg h3]
          exact heq ▸ List.mem_cons_self _ _
      · by_cases h3 : p.1 = k2
        · rw [if_pos h3]
          exact List.mem_cons_of_mem _ hmem
        · rw [if_neg h3]
          exact List.mem_cons_of_mem _ (ih hmem)

theorem mem_alSet_or {K V : Type} [DecidableEq K] (k2 : K) (v2 : V) (x : K × V) :
    ∀ l : List (K × V), x ∈ alSet k2 v2 l → x ∈ l ∨ x = (k2, v2) := by
  intro l
  induction l with
  | nil => intro h; exact Or.inr (List.mem_singleton.mp h)
  | cons p rest ih =>
      intro h
      unfold alSet at h
      by_cases h3 : p.1 = k2
      · rw [if_pos h3] at h
        rcases List.mem_cons.mp h with heq | hmem
        · exact Or.inr (by rw [heq, h3])
        · exact Or.inl (List.mem_cons_of_mem _ hmem)
      · rw [if_neg h3] at h
        rcases List.mem_cons.mp h with heq | hmem
        · exact Or.inl (heq ▸ List.mem_cons_self _ _)
        · rcases ih hmem with h4 | h4
          · exact Or.inl (List.mem_cons_of_mem _ h4)
          · exact Or.inr h4

theorem alGet_destsMove_self (d n : String) (c : Option (List Nat)) :
    ∀ dests, alGet d (destsMove d n c dests) = some (alSet n c (entryOfM dests d)) := by
  intro dests
  induction dests with
  | nil => simp [destsMove, alGet, entryOfM, alSet]
  | cons p rest ih =>
      unfold destsMove
      by_cases h : p.1 = d
      · cases p with
        | mk k2 files =>
            simp only at h
            rw [if_pos h]
            simp [alGet, h, entryOfM]
      · cases p with
        | mk k2 files =>
            simp only at h
            rw [if_neg h]
            simp only [alGet, h, if_false, entryOfM, ite_false]
            rw [ih]
            rfl

theorem alGet_destsMove_ne (d n : String) (c : Option (List Nat)) (k : String)
    (h : d ≠ k) :
    ∀ dests, alGet k (destsMove d n c dests) = alGet k dests := by
  intro dests
  induction dests with
  | nil => simp [destsMove, alGet, h]
  | cons p rest ih =>
      unfold destsMove
      cases p with
      | mk k2 files =>
          by_cases h2 : k2 = d
          · rw [if_pos h2]
            subst h2
            simp [alGet, h]
          · rw [if_neg h2]
            by_cases h3 : k2 = k
            · simp [alGet, h3]
            · simp [alGet, h3, ih]

theorem alGet_ensureKey_self (k : String)
    (dests : List (String × List (String × Option (List Nat)))) :
    alGet k (ensureKey k dests) = some ((alGet k dests).getD []) := by
  unfold ensureKey
  cases h : alGet k dests with
  | some e => simp [h]
  | none =>
      rw [alGet_append, h]
      simp [alGet]

theorem alGet_ensureKey_ne (d k : String) (h : d ≠ k)
    (dests : List (String × List (String × Option (List Nat)))) :
    alGet k (ensureKey d dests) = alGet k dests := by
  unfold ensureKey
  cases h2 : alGet d dests with
  | some e => rfl
  | none =>
      rw [alGet_append]
      cases h3 : alGet k dests with
      | some e => rfl
      | none => simp [alGet, h]

theorem entryOfM_ensureKey_mono (d k : String) (pr : String × Option (List Nat))
    (dests : List (String × List (String × Option (List Nat))))
    (h : pr ∈ entryOfM dests k) : pr ∈ entryOfM (ensureKey d dests) k := by
  by_cases hk : d = k
  · subst hk
    unfold entryOfM
    rw [alGet_ensureKey_self]
    exact h
  · unfold entryOfM
    rw [alGet_ensureKey_ne _ _ hk]
    exact h

theorem entryOfM_destsMove_mono (d n : String) (c : Option (List Nat))
    (k : String) (pr : String × Option (List Nat))
    (dests : List (String × List (String × Option (List Nat))))
    (h : pr ∈ entryOfM dests k) (hne : pr.1 ≠ n) :
    pr ∈ entryOfM (destsMove d n c dests) k := by
  by_cases hk : d = k
  · subst hk
    unfold entryOfM
    rw [alGet_destsMove_self]
    exact mem_alSet_of_ne n c pr.1 pr.2 hne _ h
  · unfold entryOfM
    rw [alGet_destsMove_ne _ _ _ _ hk]
    exact h

theorem scanDup_hashed (hash : List Nat → Nat) (h : Nat) (fol : String) :
    ∀ (entry : List (String × Option (List Nat))) (acc : List String),
      ∃ X, (scanDup hash h fol entry acc).2 = acc ++ X := by
  intro entry
  induction entry with
  | nil => intro acc; exact ⟨[], by simp [scanDup]⟩
  | cons p rest ih =>
      intro acc
      cases p with
      | mk n c =>
          unfold scanDup
          by_cases hc : c.map hash = some h
          · rw [if_pos hc]
            exact ⟨[fol ++ "/" ++ n], rfl⟩
          · rw [if_neg hc]
            obtain ⟨X, hX⟩ := ih (acc ++ [fol ++ "/" ++ n])
            exact ⟨[fol ++ "/" ++ n] ++ X, by rw [hX, List.append_assoc]⟩

theorem scanDup_true_of_mem (hash : List Nat → Nat) (h : Nat) (fol : String) :
    ∀ (entry : List (String × Option (List Nat))) (acc : List String)
      (n : String) (co : Option (List Nat)), (n, co) ∈ entry →
      co.map hash = some h → (scanDup hash h fol entry acc).1 = true := by
  intro entry
  induction entry with
  | nil => intro acc n co hmem; cases hmem
  | cons p rest ih =>
      intro acc n co hmem hco
      cases p with
      | mk n2 c2 =>
          unfold scanDup
          by_cases hc : c2.map hash = some h
          · rw [if_pos hc]
          · rw [if_neg hc]
            rcases List.mem_cons.mp hmem with heq | hmem2
            · injection heq with he1 he2
              exact absurd (he2 ▸ hco) hc
            · exact ih _ n co hmem2 hco

theorem scanDup_false_of_all (hash : List Nat → Nat) (h : Nat) (fol : String) :
    ∀ (entry : List (String × Option (List Nat))) (acc : List String),
      (∀ e ∈ entry, e.2.map hash ≠ some h) →
      (scanDup hash h fol entry acc).1 = false := by
  intro entry
  induction entry with
  | nil => intro acc _; rfl
  | cons p rest ih =>
      intro acc hall
      cases p with
      | mk n2 c2 =>
          unfold scanDup
          rw [if_neg (hall (n2, c2) (List.mem_cons_self _ _))]
          exact ih _ fun e he => hall e (List.mem_cons_of_mem _ he)

theorem is_duplicate_none (hash : List Nat → Nat) (s : MState) (folder : String)
    (f : MFile) (h : f.content = none) :
    is_duplicate hash s folder f =
      (true, { s with hashed := s.hashed ++ [mpath f],
                      unmapped := s.unmapped ++ [mpath f] }) := by
  unfold is_duplicate
  rw [h]
  rfl

theorem is_duplicate_some (hash : List Nat → Nat) (s : MState) (folder : String)
    (f : MFile) (c : List Nat) (h : f.content = some c) :
    is_duplicate hash s folder f =
      ((scanDup hash (hash c) folder (entryOfM s.dests folder)
          (s.hashed ++ [mpath f])).1,
       { s with hashed := (scanDup hash (hash c) folder (entryOfM s.dests folder)
          (s.hashed ++ [mpath f])).2 }) := by
  unfold is_duplicate
  rw [h]
  rfl

/-- Batch of per-step facts about `classify_images` for one file: one
outcome appended, the moved flag, the `moved` accumulator, the shape of
the destination-folder change, the landing of a moved file under its
destination, and monotonicity of the incident accumulators. -/
theorem classifyStep_char (hash : List Nat → Nat) (mf : String → String → Bool)
    (s : MState) (f : MFile) :
    ∃ o : MOutcome,
      (classifyStep hash mf s f).1.outcomes = s.outcomes ++ [(f.name, o)] ∧
      (classifyStep hash mf s f).2 = o.isMoved ∧
      (classifyStep hash mf s f).1.movedL =
        s.movedL ++ (if o.isMoved then [mpath f] else []) ∧
      ((classifyStep hash mf s f).1.dests = s.dests ∨
       (∃ d, (classifyStep hash mf s f).1.dests = ensureKey d s.dests) ∨
       (∃ d, o = .moved d ∧ (classifyStep hash mf s f).1.dests =
          destsMove d f.name f.content (ensureKey d s.dests))) ∧
      (∀ k, o = .moved k →
        (f.name, f.content) ∈ entryOfM (classifyStep hash mf s f).1.dests k) ∧
      (∀ x ∈ s.unmapped, x ∈ (classifyStep hash mf s f).1.unmapped) ∧
      (∀ x ∈ s.duplicates, x ∈ (classifyStep hash mf s f).1.duplicates) ∧
      (∀ x ∈ s.hashed, x ∈ (classifyStep hash mf s f).1.hashed) := by
  cases hm : f.model with
  | none =>
      have hstep : classifyStep hash mf s f =
          ({ s with unmapped := s.unmapped ++ [mpath f],
                    outcomes := s.outcomes ++ [(f.name, .unmappedModel)] }, false) := by
        simp [classifyStep, hm]
      rw [hstep]
      refine ⟨.unmappedModel, rfl, ?_, ?_, Or.inl rfl, ?_, ?_, ?_, ?_⟩
      · simp [MOutcome.isMoved]
      · simp [MOutcome.isMoved]
      · intro k hk; simp at hk
      · intro x hx; exact List.mem_append_left _ hx
      · intro x hx; exact hx
      · intro x hx; exact hx
  | some m =>
      cases hmap : MODEL_TO_FOLDER m with
      | none =>
          have hstep : classifyStep hash mf s f =
              ({ s with unmapped := s.unmapped ++ [mpath f],
                        outcomes := s.outcomes ++ [(f.name, .unmappedModel)] }, false) := by
            simp [classifyStep, hm, hmap]
          rw [hstep]
          refine ⟨.unmappedModel, rfl, ?_, ?_, Or.inl rfl, ?_, ?_, ?_, ?_⟩
          · simp [MOutcome.isMoved]
          · simp [MOutcome.isMoved]
          · intro k hk; simp at hk
          · intro x hx; exact List.mem_append_left _ hx
          · intro x hx; exact hx
          · intro x hx; exact hx
      | some folder =>
          simp only [classifyStep, hm, hmap]
          set d := sanitize_folder_name folder with hd
          set s1 : MState :=
            { s with scanned := scannedAdd folder s.scanned,
                     dests := ensureKey d s.dests } with hs1
          cases hc : f.content with
          | none =>
              rw [is_duplicate_none hash s1 d f hc]
              simp only [if_true]
              refine ⟨.dup, rfl, ?_, ?_, Or.inr (Or.inl ⟨d, rfl⟩), ?_, ?_, ?_, ?_⟩
              · simp [MOutcome.isMoved]
              · simp [MOutcome.isMoved]
              · intro k hk; simp at hk
              · intro x hx; exact List.mem_append_left _ hx
              · intro x hx; exact List.mem_append_left _ hx
              · intro x hx; exact List.mem_append_left _ hx
          | some c =>
              rw [is_duplicate_some hash s1 d f c hc]
              by_cases hsd : (scanDup hash (hash c) d (entryOfM s1.dests d)
                  (s1.hashed ++ [mpath f])).1
              · rw [hsd]
                simp only [if_true]
                refine ⟨.dup, rfl, ?_, ?_, Or.inr (Or.inl ⟨d, rfl⟩), ?_, ?_, ?_, ?_⟩
                · simp [MOutcome.isMoved]
                · simp [MOutcome.isMoved]
                · intro k hk; simp at hk
                · intro x hx; exact hx
                · intro x hx; exact List.mem_append_left _ hx
                · intro x hx
                  obtain ⟨X, hX⟩ := scanDup_hashed hash (hash c) d (entryOfM s1.dests d)
                    (s1.hashed ++ [mpath f])
                  rw [hX]
                  exact List.mem_append_left _ (List.mem_append_left _ hx)
              · rw [Bool.not_eq_true] at hsd
                rw [hsd]
                simp only [Bool.false_eq_true, if_false]
                by_cases hmf : mf d f.name
                · rw [if_pos hmf]
                  refine ⟨.moveErr, rfl, ?_, ?_, Or.inr (Or.inl ⟨d, rfl⟩), ?_, ?_, ?_, ?_⟩
                  · simp [MOutcome.isMoved]
                  · simp [MOutcome.isMoved]
                  · intro k hk; simp at hk
                  · intro x hx; exact hx
                  · intro x hx; exact List.mem_append_left _ hx
                  · intro x hx
                    obtain ⟨X, hX⟩ := scanDup_hashed hash (hash c) d (entryOfM s1.dests d)
                      (s1.hashed ++ [mpath f])
                    rw [hX]
                    exact List.mem_append_left _ (List.mem_append_left _ hx)
                · rw [if_neg hmf]
                  refine ⟨.moved d, rfl, ?_, ?_, Or.inr (Or.inr ⟨d, rfl, rfl⟩), ?_, ?_, ?_, ?_⟩
                  · simp [MOutcome.isMoved]
                  · simp [MOutcome.isMoved]
                  · intro k hk
                    injection hk with hk
                    subst hk
                    unfold entryOfM
                    rw [alGet_destsMove_self]
                    exact mem_alSet_self f.name (some c) _
                  · intro x hx; exact hx
                  · intro x hx; exact hx
                  · intro x hx
                    obtain ⟨X, hX⟩ := scanDup_hashed hash (hash c) d (entryOfM s1.dests d)
                      (s1.hashed ++ [mpath f])
                    rw [hX]
                    exact List.mem_append_left _ (List.mem_append_left _ hx)


/-- With a mapped EXIF model, `classify_images` always hashes the file —
`sha256_of_file` is invoked for it before any duplicate decision. -/
theorem classifyStep_hashes (hash : List Nat → Nat) (mf : String → String → Bool)
    (s : MState) (f : MFile) (m fol : String) (hm : f.model = some m)
    (hmap : MODEL_TO_FOLDER m = some fol) :
    mpath f ∈ (classifyStep hash mf s f).1.hashed := by
  simp only [classifyStep, hm, hmap]
  set d := sanitize_folder_name fol with hd
  set s1 : MState :=
    { s with scanned := scannedAdd fol s.scanned,
             dests := ensureKey d s.dests } with hs1
  cases hc : f.content with
  | none =>
      rw [is_duplicate_none hash s1 d f hc]
      simp only [if_true]
      exact List.mem_append_right _ (List.mem_singleton_self _)
  | some c =>
      rw [is_duplicate_some hash s1 d f c hc]
      obtain ⟨X, hX⟩ := scanDup_hashed hash (hash c) d (entryOfM s1.dests d)
        (s1.hashed ++ [mpath f])
      have hmem : mpath f ∈ (scanDup hash (hash c) d (entryOfM s1.dests d)
          (s1.hashed ++ [mpath f])).2 := by
        rw [hX]
        exact List.mem_append_left _
          (List.mem_append_right _ (List.mem_singleton_self _))
      by_cases hsd : (scanDup hash (hash c) d (entryOfM s1.dests d)
          (s1.hashed ++ [mpath f])).1
      · rw [hsd]
        simp only [if_true]
        exact hmem
      · rw [Bool.not_eq_true] at hsd
        rw [hsd]
        simp only [Bool.false_eq_true, if_false]
        by_cases hmf : mf d f.name
        · rw [if_pos hmf]
          exact hmem
        · rw [if_neg hmf]
          exact hmem

/-- A file whose content cannot be read is pushed into both the
`unmapped` and the `duplicates` accumulators, gets outcome `dup`, and is
not moved. -/
theorem classifyStep_hashfail (hash : List Nat → Nat) (mf : String → String → Bool)
    (s : MState) (f : MFile) (m fol : String) (hm : f.model = some m)
    (hmap : MODEL_TO_FOLDER m = some fol) (hc : f.content = none) :
    (classifyStep hash mf s f).1.outcomes = s.outcomes ++ [(f.name, .dup)] ∧
    (classifyStep hash mf s f).1.unmapped = s.unmapped ++ [mpath f] ∧
    (classifyStep hash mf s f).1.duplicates = s.duplicates ++ [mpath f] ∧
    (classifyStep hash mf s f).2 = false ∧
    (classifyStep hash mf s f).1.movedL = s.movedL := by
  simp only [classifyStep, hm, hmap]
  set d := sanitize_folder_name fol with hd
  set s1 : MState :=
    { s with scanned := scannedAdd fol s.scanned,
             dests := ensureKey d s.dests } with hs1
  rw [is_duplicate_none hash s1 d f hc]
  simp

theorem classifyStep_pair_mono (hash : List Nat → Nat) (mf : String → String → Bool)
    (s : MState) (f : MFile) (k : String) (pr : String × Option (List Nat))
    (h : pr ∈ entryOfM s.dests k) (hne : pr.1 ≠ f.name) :
    pr ∈ entryOfM (classifyStep hash mf s f).1.dests k := by
  obtain ⟨o, -, -, -, hshape, -, -, -, -⟩ := classifyStep_char hash mf s f
  rcases hshape with h1 | ⟨d, h1⟩ | ⟨d, -, h1⟩
  · rw [h1]; exact h
  · rw [h1]; exact entryOfM_ensureKey_mono d k pr _ h
  · rw [h1]
    exact entryOfM_destsMove_mono d f.name f.content k pr _
      (entryOfM_ensureKey_mono d k pr _ h) hne

theorem classifyRun_pair_mono (hash : List Nat → Nat) (mf : String → String → Bool) :
    ∀ (files : List MFile) (s : MState) (k : String)
      (pr : String × Option (List Nat)), pr ∈ entryOfM s.dests k →
      (∀ g ∈ files, g.name ≠ pr.1) →
      pr ∈ entryOfM (classifyRun hash mf files s).1.dests k := by
  intro files
  induction files with
  | nil => intro s k pr h _; exact h
  | cons f fs ih =>
      intro s k pr h hall
      by_cases hext : allowedModel f.ext
      · simp only [classifyRun, hext, if_true]
        exact ih _ k pr
          (classifyStep_pair_mono hash mf s f k pr h
            (fun he => hall f (List.mem_cons_self f fs) he.symm))
          (fun g hg => hall g (List.mem_cons_of_mem f hg))
      · simp only [classifyRun, hext, Bool.false_eq_true, if_false]
        exact ih _ k pr h (fun g hg => hall g (List.mem_cons_of_mem f hg))

theorem classifyRun_rem_sub (hash : List Nat → Nat) (mf : String → String → Bool) :
    ∀ (files : List MFile) (s : MState) (g : MFile),
      g ∈ (classifyRun hash mf files s).2 → g ∈ files := by
  intro files
  induction files with
  | nil => intro s g h; simp [classifyRun] at h
  | cons f fs ih =>
      intro s g h
      by_cases hext : allowedModel f.ext
      · simp only [classifyRun, hext, if_true] at h
        by_cases hmv : (classifyStep hash mf s f).2
        · rw [if_pos hmv] at h
          exact List.mem_cons_of_mem f (ih _ g h)
        · rw [if_neg hmv] at h
          rcases List.mem_cons.mp h with h | h
          · exact h ▸ List.mem_cons_self f fs
          · exact List.mem_cons_of_mem f (ih _ g h)
      · simp only [classifyRun, hext, Bool.false_eq_true, if_false] at h
        rcases List.mem_cons.mp h with h | h
        · exact h ▸ List.mem_cons_self f fs
        · exact List.mem_cons_of_mem f (ih _ g h)

theorem classifyRun_outcomes_frozen (hash : List Nat → Nat) (mf : String → String → Bool) :
    ∀ (files : List MFile) (s : MState) (n : String),
      (∀ g ∈ files, g.name ≠ n) →
      alGet n (classifyRun hash mf files s).1.outcomes = alGet n s.outcomes := by
  intro files
  induction files with
  | nil => intro s n _; rfl
  | cons f fs ih =>
      intro s n hall
      by_cases hext : allowedModel f.ext
      · simp only [classifyRun, hext, if_true]
        obtain ⟨o, ho, -, -, -, -, -, -, -⟩ := classifyStep_char hash mf s f
        rw [ih _ n (fun g hg => hall g (List.mem_cons_of_mem f hg)), ho, alGet_append]
        cases halGet : alGet n s.outcomes with
        | none => simp [alGet, hall f (List.mem_cons_self f fs)]
        | some o2 => rfl
      · simp only [classifyRun, hext, Bool.false_eq_true, if_false]
        exact ih _ n (fun g hg => hall g (List.mem_cons_of_mem f hg))

theorem classifyRun_unmapped_mono (hash : List Nat → Nat) (mf : String → String → Bool) :
    ∀ (files : List MFile) (s : MState) (x : String),
      x ∈ s.unmapped → x ∈ (classifyRun hash mf files s).1.unmapped := by
  intro files
  induction files with
  | nil => intro s x h; exact h
  | cons f fs ih =>
      intro s x h
      by_cases hext : allowedModel f.ext
      · simp only [classifyRun, hext, if_true]
        obtain ⟨o, -, -, -, -, -, hun, -, -⟩ := classifyStep_char hash mf s f
        exact ih _ x (hun x h)
      · simp only [classifyRun, hext, Bool.false_eq_true, if_false]
        exact ih _ x h

theorem classifyRun_duplicates_mono (hash : List Nat → Nat) (mf : String → String → Bool) :
    ∀ (files : List MFile) (s : MState) (x : String),
      x ∈ s.duplicates → x ∈ (classifyRun hash mf files s).1.duplicates := by
  intro files
  induction files with
  | nil => intro s x h; exact h
  | cons f fs ih =>
      intro s x h
      by_cases hext : allowedModel f.ext
      · simp only [classifyRun, hext, if_true]
        obtain ⟨o, -, -, -, -, -, -, hdupm, -⟩ := classifyStep_char hash mf s f
        exact ih _ x (hdupm x h)
      · simp only [classifyRun, hext, Bool.false_eq_true, if_false]
        exact ih _ x h

theorem classifyRun_hashed_mono (hash : List Nat → Nat) (mf : String → String → Bool) :
    ∀ (files : List MFile) (s : MState) (x : String),
      x ∈ s.hashed → x ∈ (classifyRun hash mf files s).1.hashed := by
  intro files
  induction files with
  | nil => intro s x h; exact h
  | cons f fs ih =>
      intro s x h
      by_cases hext : allowedModel f.ext
      · simp only [classifyRun, hext, if_true]
        obtain ⟨o, -, -, -, -, -, -, -, hhm⟩ := classifyStep_char hash mf s f
        exact ih _ x (hhm x h)
      · simp only [classifyRun, hext, Bool.false_eq_true, if_false]
        exact ih _ x h

/-- Batch characterization of a classify run: one outcome per processed
file, in order, and the `moved` accumulator lists exactly the paths of
the moved-outcome files. -/
theorem classifyRun_char (hash : List Nat → Nat) (mf : String → String → Bool) :
    ∀ (files : List MFile) (s : MState),
      ∃ L : List (String × MOutcome),
        (classifyRun hash mf files s).1.outcomes = s.outcomes ++ L ∧
        L.map Prod.fst =
          (files.filter fun f => allowedModel f.ext).map (fun f => f.name) ∧
        (classifyRun hash mf files s).1.movedL = s.movedL ++
          ((L.filter fun pr => pr.2.isMoved).map fun pr => "CAMERAS/" ++ pr.1) := by
  intro files
  induction files with
  | nil =>
      intro s
      exact ⟨[], by simp [classifyRun], by simp, by simp [classifyRun]⟩
  | cons f fs ih =>
      intro s
      by_cases hext : allowedModel f.ext
      · obtain ⟨o, ho, hmv, hmvd, -, -, -, -, -⟩ := classifyStep_char hash mf s f
        obtain ⟨L, hL1, hL2, hL3⟩ := ih (classifyStep hash mf s f).1
        refine ⟨(f.name, o) :: L, ?_, ?_, ?_⟩
        · simp only [classifyRun, hext, if_true]
          rw [hL1, ho, List.append_assoc]
          rfl
        · simp [hL2, hext]
        · simp only [classifyRun, hext, if_true]
          rw [hL3, hmvd, List.append_assoc, List.filter_cons]
          by_cases hm : o.isMoved
          · simp [hm, mpath]
          · simp [hm]
      · obtain ⟨L, hL1, hL2, hL3⟩ := ih s
        refine ⟨L, ?_, ?_, ?_⟩
        · simpa [classifyRun, hext] using hL1
        · simp [hL2, hext]
        · simpa [classifyRun, hext] using hL3

/-- Per-file fate in a classify run: an unprocessed or non-moved file is
still at the root afterwards; a moved file is gone from the root and its
name-content pair sits under its destination folder. -/
theorem classifyRun_fate (hash : List Nat → Nat) (mf : String → String → Bool) :
    ∀ (files : List MFile) (s : MState),
      (files.map fun f => f.name).Nodup →
      (∀ g ∈ files, alGet g.name s.outcomes = none) →
      ∀ f ∈ files,
        (allowedModel f.ext = false → f ∈ (classifyRun hash mf files s).2) ∧
        (∀ k, alGet f.name (classifyRun hash mf files s).1.outcomes = some (.moved k) →
          (f.name, f.content) ∈ entryOfM (classifyRun hash mf files s).1.dests k ∧
          ∀ g ∈ (classifyRun hash mf files s).2, g.name ≠ f.name) ∧
        (∀ o, alGet f.name (classifyRun hash mf files s).1.outcomes = some o →
          o.isMoved = false → f ∈ (classifyRun hash mf files s).2) := by
  intro files
  induction files with
  | nil => intro s _ _ f hf; cases hf
  | cons f0 fs ih =>
      intro s hnd hfresh f hf
      have hnd2 : (fs.map fun f => f.name).Nodup := (List.nodup_cons.mp hnd).2
      have hf0name : f0.name ∉ fs.map fun f => f.name := (List.nodup_cons.mp hnd).1
      have hfs_ne : ∀ g ∈ fs, g.name ≠ f0.name := by
        intro g hg he
        exact hf0name (he ▸ List.mem_map_of_mem _ hg)
      by_cases hext : allowedModel f0.ext
      · obtain ⟨o0, ho, hmv, -, -, hpairs, -, -, -⟩ := classifyStep_char hash mf s f0
        have hfresh2 : ∀ g ∈ fs,
            alGet g.name (classifyStep hash mf s f0).1.outcomes = none := by
          intro g hg
          have hne : f0.name ≠ g.name := fun he => (hfs_ne g hg) he.symm
          rw [ho, alGet_append, hfresh g (List.mem_cons_of_mem f0 hg)]
          simp [alGet, hne]
        rcases List.mem_cons.mp hf with rfl | hfmem
        · have hout : alGet f.name
              (classifyRun hash mf fs (classifyStep hash mf s f).1).1.outcomes
              = some o0 := by
            rw [classifyRun_outcomes_frozen hash mf fs _ f.name hfs_ne, ho,
              alGet_append, hfresh f (List.mem_cons_self f fs)]
            simp [alGet]
          refine ⟨?_, ?_, ?_⟩
          · intro hcon
            rw [hext] at hcon
            cases hcon
          · intro k hk
            simp only [classifyRun, hext, if_true] at hk ⊢
            rw [hout] at hk
            have ho2 : o0 = .moved k := Option.some.inj hk
            obtain hpair := hpairs k ho2
            constructor
            · exact classifyRun_pair_mono hash mf fs _ k _ hpair
                (fun g hg he => (hfs_ne g hg) he)
            · intro g hg
              have hmvd : (classifyStep hash mf s f).2 = true := by
                rw [hmv, ho2]; rfl
              rw [if_pos hmvd] at hg
              exact hfs_ne g (classifyRun_rem_sub hash mf fs _ g hg)
          · intro o hko hnm
            simp only [classifyRun, hext, if_true] at hko ⊢
            rw [hout] at hko
            have ho2 : o0 = o := Option.some.inj hko
            have hmvd : (classifyStep hash mf s f).2 = false := by
              rw [hmv, ho2, hnm]
            rw [if_neg (by rw [hmvd]; exact Bool.false_ne_true)]
            exact List.mem_cons_self f _
        · have IH := ih (classifyStep hash mf s f0).1 hnd2 hfresh2 f hfmem
          have hname_ne : f.name ≠ f0.name := hfs_ne f hfmem
          refine ⟨?_, ?_, ?_⟩
          · intro hcon
            simp only [classifyRun, hext, if_true]
            by_cases hb : (classifyStep hash mf s f0).2
            · rw [if_pos hb]; exact IH.1 hcon
            · rw [if_neg hb]; exact List.mem_cons_of_mem f0 (IH.1 hcon)
          · intro k hk
            simp only [classifyRun, hext, if_true] at hk ⊢
            obtain ⟨hp, hrem⟩ := IH.2.1 k hk
            refine ⟨hp, ?_⟩
            intro g hg
            by_cases hb : (classifyStep hash mf s f0).2
            · rw [if_pos hb] at hg; exact hrem g hg
            · rw [if_neg hb] at hg
              rcases List.mem_cons.mp hg with rfl | hg2
              · exact fun he => hname_ne he.symm
              · exact hrem g hg2
          · intro o hko hnm
            simp only [classifyRun, hext, if_true] at hko ⊢
            have := IH.2.2 o hko hnm
            by_cases hb : (classifyStep hash mf s f0).2
            · rw [if_pos hb]; exact this
            · rw [if_neg hb]; exact List.mem_cons_of_mem f0 this
      · rcases List.mem_cons.mp hf with rfl | hfmem
        · have hout : alGet f.name (classifyRun hash mf fs s).1.outcomes = none := by
            rw [classifyRun_outcomes_frozen hash mf fs s f.name hfs_ne]
            exact hfresh f (List.mem_cons_self f fs)
          refine ⟨?_, ?_, ?_⟩
          · intro _
            simp only [classifyRun, hext, Bool.false_eq_true, if_false]
            exact List.mem_cons_self f _
          · intro k hk
            simp only [classifyRun, hext, Bool.false_eq_true, if_false] at hk
            rw [hout] at hk
            cases hk
          · intro o hko _
            simp only [classifyRun, hext, Bool.false_eq_true, if_false] at hko ⊢
            rw [hout] at hko
            cases hko
        · have IH := ih s hnd2
            (fun g hg => hfresh g (List.mem_cons_of_mem f0 hg)) f hfmem
          have hname_ne : f.name ≠ f0.name := hfs_ne f hfmem
          refine ⟨?_, ?_, ?_⟩
          · intro hcon
            simp only [classifyRun, hext, Bool.false_eq_true, if_false]
            exact List.mem_cons_of_mem f0 (IH.1 hcon)
          · intro k hk
            simp only [classifyRun, hext, Bool.false_eq_true, if_false] at hk ⊢
            obtain ⟨hp, hrem⟩ := IH.2.1 k hk
            refine ⟨hp, ?_⟩
            intro g hg
            rcases List.mem_cons.mp hg with rfl | hg2
            · exact fun he => hname_ne he.symm
            · exact hrem g hg2
          · intro o hko hnm
            simp only [classifyRun, hext, Bool.false_eq_true, if_false] at hko ⊢
            exact List.mem_cons_of_mem f0 (IH.2.2 o hko hnm)

theorem cameras_prefix_inj : ∀ (a b : String),
    "CAMERAS/" ++ a = "CAMERAS/" ++ b → a = b := by
  intro ⟨da⟩ ⟨db⟩ h
  have h2 : "CAMERAS/".data ++ da = "CAMERAS/".data ++ db := congrArg String.data h
  exact congrArg String.mk (List.append_cancel_left h2)

/-- Every path in the `moved` accumulator after a run was there before or
is the root path of one of the processed files. -/
theorem classifyRun_movedL_mem (hash : List Nat → Nat) (mf : String → String → Bool) :
    ∀ (files : List MFile) (s : MState) (x : String),
      x ∈ (classifyRun hash mf files s).1.movedL →
      x ∈ s.movedL ∨ ∃ g ∈ files, x = mpath g := by
  intro files
  induction files with
  | nil => intro s x h; exact Or.inl h
  | cons f fs ih =>
      intro s x h
      by_cases hext : allowedModel f.ext
      · simp only [classifyRun, hext, if_true] at h
        obtain ⟨o, -, -, hmvd, -, -, -, -, -⟩ := classifyStep_char hash mf s f
        rcases ih _ x h with hin | ⟨g, hg, hx⟩
        · rw [hmvd] at hin
          rcases List.mem_append.mp hin with hin | hin
          · exact Or.inl hin
          · by_cases hm : o.isMoved
            · rw [if_pos hm] at hin
              rcases List.mem_singleton.mp hin with rfl
              exact Or.inr ⟨f, List.mem_cons_self f fs, rfl⟩
            · rw [if_neg hm] at hin
              cases hin
        · exact Or.inr ⟨g, List.mem_cons_of_mem f hg, hx⟩
      · simp only [classifyRun, hext, Bool.false_eq_true, if_false] at h
        rcases ih _ x h with hin | ⟨g, hg, hx⟩
        · exact Or.inl hin
        · exact Or.inr ⟨g, List.mem_cons_of_mem f hg, hx⟩

/-- Claim C3, counterexample.  In model_sort v2.3 a file whose hash
computation fails (unreadable content) is NOT reported as an error
outcome and excluded from duplicate classification: `is_duplicate`
returns `True` for it (line 151), so `classify_images` records it as a
duplicate — its path is appended to the `duplicates` accumulator (line
305) besides the `unmapped` one, and the run's only outcome for it is the
duplicate outcome. -/
theorem claim_C3_cex :
    (classifyRun sha256Nat exNoMF [exMFu] exMS0).1.outcomes = [(exMFu.name, .dup)] ∧
    (classifyRun sha256Nat exNoMF [exMFu] exMS0).1.duplicates = [mpath exMFu] ∧
    (classifyRun sha256Nat exNoMF [exMFu] exMS0).1.unmapped = [mpath exMFu] := by
  decide

/-- Claim C3, amended.  A file with a mapped model whose fingerprint
computation fails is classified as a DUPLICATE by model_sort v2.3: its
recorded outcome is the duplicate one, its path lands in both the
`unmapped` and the `duplicates` accumulators, and it is never moved — it
stays at its original root path and never reaches the `moved` list. -/
theorem claim_C3 (hash : List Nat → Nat) (mf : String → String → Bool)
    (files : List MFile) (s : MState) (f : MFile) (m fol : String)
    (hnd : (files.map fun g => g.name).Nodup)
    (hfresh : ∀ g ∈ files, alGet g.name s.outcomes = none)
    (hmv0 : mpath f ∉ s.movedL)
    (hf : f ∈ files) (hext : allowedModel f.ext = true)
    (hm : f.model = some m) (hmap : MODEL_TO_FOLDER m = some fol)
    (hc : f.content = none) :
    alGet f.name (classifyRun hash mf files s).1.outcomes = some .dup ∧
    mpath f ∈ (classifyRun hash mf files s).1.unmapped ∧
    mpath f ∈ (classifyRun hash mf files s).1.duplicates ∧
    f ∈ (classifyRun hash mf files s).2 ∧
    mpath f ∉ (classifyRun hash mf files s).1.movedL := by
  induction files generalizing s with
  | nil => cases hf
  | cons f0 fs ih =>
      have hnd2 : (fs.map fun g => g.name).Nodup := (List.nodup_cons.mp hnd).2
      have hf0name : f0.name ∉ fs.map fun g => g.name := (List.nodup_cons.mp hnd).1
      have hfs_ne : ∀ g ∈ fs, g.name ≠ f0.name := by
        intro g hg he
        exact hf0name (he ▸ List.mem_map_of_mem _ hg)
      rcases List.mem_cons.mp hf with rfl | hfmem
      · obtain ⟨hout, hun, hdup, hflag, hmvd⟩ :=
          classifyStep_hashfail hash mf s f m fol hm hmap hc
        refine ⟨?_, ?_, ?_, ?_, ?_⟩
        · simp only [classifyRun, hext, if_true]
          rw [classifyRun_outcomes_frozen hash mf fs _ f.name hfs_ne, hout,
            alGet_append, hfresh f (List.mem_cons_self f fs)]
          simp [alGet]
        · simp only [classifyRun, hext, if_true]
          exact classifyRun_unmapped_mono hash mf fs _ (mpath f)
            (by rw [hun]; exact List.mem_append_right _ (List.mem_singleton.mpr rfl))
        · simp only [classifyRun, hext, if_true]
          exact classifyRun_duplicates_mono hash mf fs _ (mpath f)
            (by rw [hdup]; exact List.mem_append_right _ (List.mem_singleton.mpr rfl))
        · simp only [classifyRun, hext, if_true]
          rw [if_neg (by rw [hflag]; exact Bool.false_ne_true)]
          exact List.mem_cons_self f _
        · simp only [classifyRun, hext, if_true]
          intro hin
          rcases classifyRun_movedL_mem hash mf fs _ (mpath f) hin with hin2 | ⟨g, hg, hx⟩
          · rw [hmvd] at hin2
            exact hmv0 hin2
          · exact hfs_ne g hg (cameras_prefix_inj f.name g.name hx).symm
      · have hname_ne : f.name ≠ f0.name := hfs_ne f hfmem
        by_cases hext0 : allowedModel f0.ext
        · obtain ⟨o0, ho0, -, hmvd0, -, -, -, -, -⟩ := classifyStep_char hash mf s f0
          have hfresh2 : ∀ g ∈ fs,
              alGet g.name (classifyStep hash mf s f0).1.outcomes = none := by
            intro g hg
            have hne : f0.name ≠ g.name := fun he => (hfs_ne g hg) he.symm
            rw [ho0, alGet_append, hfresh g (List.mem_cons_of_mem f0 hg)]
            simp [alGet, hne]
          have hmv2 : mpath f ∉ (classifyStep hash mf s f0).1.movedL := by
            rw [hmvd0]
            intro hin
            rcases List.mem_append.mp hin with hin | hin
            · exact hmv0 hin
            · by_cases hmo : o0.isMoved
              · rw [if_pos hmo] at hin
                exact hname_ne (cameras_prefix_inj f.name f0.name
                  (List.mem_singleton.mp hin))
              · rw [if_neg hmo] at hin
                cases hin
          obtain ⟨h1, h2, h3, h4, h5⟩ :=
            ih (classifyStep hash mf s f0).1 hnd2 hfresh2 hmv2 hfmem
          refine ⟨?_, ?_, ?_, ?_, ?_⟩
          · simp only [classifyRun, hext0, if_true]; exact h1
          · simp only [classifyRun, hext0, if_true]; exact h2
          · simp only [classifyRun, hext0, if_true]; exact h3
          · simp only [classifyRun, hext0, if_true]
            by_cases hb : (classifyStep hash mf s f0).2
            · rw [if_pos hb]; exact h4
            · rw [if_neg hb]; exact List.mem_cons_of_mem f0 h4
          · simp only [classifyRun, hext0, if_true]; exact h5
        · obtain ⟨h1, h2, h3, h4, h5⟩ :=
            ih s hnd2 (fun g hg => hfresh g (List.mem_cons_of_mem f0 hg)) hmv0 hfmem
          refine ⟨?_, ?_, ?_, ?_, ?_⟩
          · simp only [classifyRun, hext0, Bool.false_eq_true, if_false]; exact h1
          · simp only [classifyRun, hext0, Bool.false_eq_true, if_false]; exact h2
          · simp only [classifyRun, hext0, Bool.false_eq_true, if_false]; exact h3
          · simp only [classifyRun, hext0, Bool.false_eq_true, if_false]
            exact List.mem_cons_of_mem f0 h4
          · simp only [classifyRun, hext0, Bool.false_eq_true, if_false]; exact h5

/-- Claim C3, witness: the amended theorem evaluated on the unreadable
root file `c.jpg` alone. -/
theorem claim_C3_witness :
    alGet exMFu.name (classifyRun sha256Nat exNoMF [exMFu] exMS0).1.outcomes =
      some .dup ∧
    mpath exMFu ∈ (classifyRun sha256Nat exNoMF [exMFu] exMS0).1.unmapped ∧
    mpath exMFu ∈ (classifyRun sha256Nat exNoMF [exMFu] exMS0).1.duplicates ∧
    exMFu ∈ (classifyRun sha256Nat exNoMF [exMFu] exMS0).2 ∧
    mpath exMFu ∉ (classifyRun sha256Nat exNoMF [exMFu] exMS0).1.movedL :=
  claim_C3 sha256Nat exNoMF [exMFu] exMS0 exMFu "ILCE-6000" "Sony ILCE-6000"
    (by decide) (by intro g hg; rfl) (by decide) (by decide) (by decide)
    (by decide) (by decide) (by decide)

theorem entryOfM_ensureKey_sub (k k2 : String)
    (dests : List (String × List (String × Option (List Nat))))
    (pr : String × Option (List Nat))
    (h : pr ∈ entryOfM (ensureKey k dests) k2) : pr ∈ entryOfM dests k2 := by
  by_cases hk : k = k2
  · subst hk
    unfold entryOfM at h ⊢
    rw [alGet_ensureKey_self] at h
    exact h
  · unfold entryOfM at h ⊢
    rw [alGet_ensureKey_ne _ _ hk] at h
    exact h

theorem entryOfM_destsMove_sub (d n : String) (c : Option (List Nat)) (k : String)
    (pr : String × Option (List Nat))
    (dests : List (String × List (String × Option (List Nat))))
    (h : pr ∈ entryOfM (destsMove d n c dests) k) :
    pr ∈ entryOfM dests k ∨ pr = (n, c) := by
  by_cases hk : d = k
  · subst hk
    unfold entryOfM at h
    rw [alGet_destsMove_self] at h
    exact mem_alSet_or n c pr _ h
  · unfold entryOfM at h
    rw [alGet_destsMove_ne _ _ _ _ hk] at h
    exact Or.inl h

theorem alGet_eq_none_of_not_mem {K V : Type} [DecidableEq K] :
    ∀ (L : List (K × V)) (k : K), k ∉ L.map Prod.fst → alGet k L = none := by
  intro L
  induction L with
  | nil => intro k _; rfl
  | cons p rest ih =>
      intro k hk
      rw [List.map_cons, List.mem_cons, not_or] at hk
      cases p with
      | mk k2 v =>
          have h1 : k2 ≠ k := fun h => hk.1 h.symm
          simp only [alGet, h1, if_false]
          exact ih k hk.2

/-- A classify run over a concatenated listing is the run over the first
part followed by the run over the second from the reached state. -/
theorem classifyRun_append (hash : List Nat → Nat) (mf : String → String → Bool) :
    ∀ (xs ys : List MFile) (s : MState),
      (classifyRun hash mf (xs ++ ys) s).1 =
        (classifyRun hash mf ys (classifyRun hash mf xs s).1).1 := by
  intro xs
  induction xs with
  | nil => intro ys s; rfl
  | cons f fs ih =>
      intro ys s
      by_cases hext : allowedModel f.ext
      · simp only [List.cons_append, classifyRun, hext, if_true]
        exact ih ys _
      · simp only [List.cons_append, classifyRun, hext, Bool.false_eq_true, if_false]
        exact ih ys _

/-- One classify step keeps the destination folder `D` free of any entry
whose content hashes like `c`, provided the stepped file itself does not
hash like `c`. -/
theorem classifyStep_noC (hash : List Nat → Nat) (mf : String → String → Bool)
    (D : String) (c : List Nat) (s : MState) (f : MFile)
    (hf : ∀ cf, f.content = some cf → hash cf ≠ hash c)
    (hs : ∀ pr ∈ entryOfM s.dests D, ∀ d, pr.2 = some d → hash d ≠ hash c) :
    ∀ pr ∈ entryOfM (classifyStep hash mf s f).1.dests D,
      ∀ d, pr.2 = some d → hash d ≠ hash c := by
  obtain ⟨o, -, -, -, hshape, -, -, -, -⟩ := classifyStep_char hash mf s f
  intro pr hpr d hd
  rcases hshape with h1 | ⟨d2, h1⟩ | ⟨d2, -, h1⟩
  · rw [h1] at hpr; exact hs pr hpr d hd
  · rw [h1] at hpr
    exact hs pr (entryOfM_ensureKey_sub d2 D s.dests pr hpr) d hd
  · rw [h1] at hpr
    rcases entryOfM_destsMove_sub d2 f.name f.content D pr _ hpr with h2 | h2
    · exact hs pr (entryOfM_ensureKey_sub d2 D s.dests pr h2) d hd
    · rw [h2] at hd
      exact hf d hd

/-- A classify run over files none of which hashes like `c` keeps the
destination folder `D` free of entries hashing like `c`. -/
theorem classifyRun_noC (hash : List Nat → Nat) (mf : String → String → Bool)
    (D : String) (c : List Nat) :
    ∀ (files : List MFile) (s : MState),
      (∀ g ∈ files, ∀ cf, g.content = some cf → hash cf ≠ hash c) →
      (∀ pr ∈ entryOfM s.dests D, ∀ d, pr.2 = some d → hash d ≠ hash c) →
      ∀ pr ∈ entryOfM (classifyRun hash mf files s).1.dests D,
        ∀ d, pr.2 = some d → hash d ≠ hash c := by
  intro files
  induction files with
  | nil => intro s _ hs; exact hs
  | cons f fs ih =>
      intro s hall hs
      by_cases hext : allowedModel f.ext
      · simp only [classifyRun, hext, if_true]
        exact ih _ (fun g hg => hall g (List.mem_cons_of_mem f hg))
          (classifyStep_noC hash mf D c s f (hall f (List.mem_cons_self f fs)) hs)
      · simp only [classifyRun, hext, Bool.false_eq_true, if_false]
        exact ih _ (fun g hg => hall g (List.mem_cons_of_mem f hg)) hs

/-- When nothing at the destination hashes like the file's content and
its move succeeds, `classify_images` moves the file: `MOVED` outcome, and
the name-content pair lands under the destination folder. -/
theorem classifyStep_moves (hash : List Nat → Nat) (mf : String → String → Bool)
    (s : MState) (f : MFile) (m fol : String) (c : List Nat)
    (hm : f.model = some m) (hmap : MODEL_TO_FOLDER m = some fol)
    (hc : f.content = some c)
    (hno : ∀ pr ∈ entryOfM s.dests (sanitize_folder_name fol),
      ∀ d, pr.2 = some d → hash d ≠ hash c)
    (hmf : mf (sanitize_folder_name fol) f.name = false) :
    (classifyStep hash mf s f).1.outcomes =
      s.outcomes ++ [(f.name, .moved (sanitize_folder_name fol))] ∧
    (classifyStep hash mf s f).2 = true ∧
    (classifyStep hash mf s f).1.movedL = s.movedL ++ [mpath f] ∧
    (f.name, some c) ∈
      entryOfM (classifyStep hash mf s f).1.dests (sanitize_folder_name fol) := by
  simp only [classifyStep, hm, hmap]
  set D := sanitize_folder_name fol with hD
  set s1 : MState :=
    { s with scanned := scannedAdd fol s.scanned,
             dests := ensureKey D s.dests } with hs1
  rw [is_duplicate_some hash s1 D f c hc]
  have hfalse : (scanDup hash (hash c) D (entryOfM s1.dests D)
      (s1.hashed ++ [mpath f])).1 = false := by
    apply scanDup_false_of_all
    intro e he hmap2
    cases he2 : e.2 with
    | none => rw [he2] at hmap2; simp at hmap2
    | some d =>
        rw [he2] at hmap2
        have hd : hash d = hash c := by simpa using hmap2
        have hmem : e ∈ entryOfM s.dests D :=
          entryOfM_ensureKey_sub D D s.dests e he
        exact hno e hmem d he2 hd
  rw [hfalse]
  simp only [Bool.false_eq_true, if_false]
  rw [hmf]
  simp only [Bool.false_eq_true, if_false]
  refine ⟨trivial, trivial, trivial, ?_⟩
  unfold entryOfM
  rw [alGet_destsMove_self, ← hc]
  exact mem_alSet_self f.name f.content _

/-- When a same-named-folder entry already hashes like the file's
content, `classify_images` records the file as a duplicate and does not
move it. -/
theorem classifyStep_dups (hash : List Nat → Nat) (mf : String → String → Bool)
    (s : MState) (f : MFile) (m fol : String) (c : List Nat) (n0 : String)
    (hm : f.model = some m) (hmap : MODEL_TO_FOLDER m = some fol)
    (hc : f.content = some c)
    (hmem : (n0, some c) ∈ entryOfM s.dests (sanitize_folder_name fol)) :
    (classifyStep hash mf s f).1.outcomes = s.outcomes ++ [(f.name, .dup)] ∧
    (classifyStep hash mf s f).2 = false ∧
    (classifyStep hash mf s f).1.movedL = s.movedL := by
  simp only [classifyStep, hm, hmap]
  set D := sanitize_folder_name fol with hD
  set s1 : MState :=
    { s with scanned := scannedAdd fol s.scanned,
             dests := ensureKey D s.dests } with hs1
  rw [is_duplicate_some hash s1 D f c hc]
  have htrue : (scanDup hash (hash c) D (entryOfM s1.dests D)
      (s1.hashed ++ [mpath f])).1 = true := by
    apply scanDup_true_of_mem hash (hash c) D _ _ n0 (some c)
    · exact entryOfM_ensureKey_mono D D (n0, some c) s.dests hmem
    · simp
  rw [htrue]
  simp only [if_true]
  exact ⟨trivial, trivial, trivial⟩

/-- Once a destination entry with content `c` is in place under a name no
later file carries, every later file with content `c` (mapped to that
same folder) is recorded as a duplicate. -/
theorem classifyRun_dup_phase (hash : List Nat → Nat) (mf : String → String → Bool)
    (fol : String) (c : List Nat) (n0 : String) :
    ∀ (files : List MFile) (s : MState),
      (files.map fun g => g.name).Nodup →
      (∀ g ∈ files, alGet g.name s.outcomes = none) →
      (n0, some c) ∈ entryOfM s.dests (sanitize_folder_name fol) →
      (∀ g ∈ files, g.name ≠ n0) →
      ∀ g ∈ files, g.content = some c → allowedModel g.ext = true →
        (∃ m2, g.model = some m2 ∧ MODEL_TO_FOLDER m2 = some fol) →
        alGet g.name (classifyRun hash mf files s).1.outcomes = some .dup := by
  intro files
  induction files with
  | nil => intro s _ _ _ _ g hg; cases hg
  | cons f0 fs ih =>
      intro s hnd hfresh hpair hne0 g hg hgc hgext hgmap
      have hnd2 : (fs.map fun x => x.name).Nodup := (List.nodup_cons.mp hnd).2
      have hf0name : f0.name ∉ fs.map fun x => x.name := (List.nodup_cons.mp hnd).1
      have hfs_ne : ∀ x ∈ fs, x.name ≠ f0.name := by
        intro x hx he
        exact hf0name (he ▸ List.mem_map_of_mem _ hx)
      by_cases hext0 : allowedModel f0.ext
      · obtain ⟨o0, ho0, -, -, -, -, -, -, -⟩ := classifyStep_char hash mf s f0
        have hfresh2 : ∀ x ∈ fs,
            alGet x.name (classifyStep hash mf s f0).1.outcomes = none := by
          intro x hx
          have hne : f0.name ≠ x.name := fun he => (hfs_ne x hx) he.symm
          rw [ho0, alGet_append, hfresh x (List.mem_cons_of_mem f0 hx)]
          simp [alGet, hne]
        have hpair2 : (n0, some c) ∈
            entryOfM (classifyStep hash mf s f0).1.dests (sanitize_folder_name fol) :=
          classifyStep_pair_mono hash mf s f0 _ (n0, some c) hpair
            (fun he => (hne0 f0 (List.mem_cons_self f0 fs)) he.symm)
        rcases List.mem_cons.mp hg with rfl | hgmem
        · obtain ⟨m2, hm2, hmap2⟩ := hgmap
          obtain ⟨hout, -, -⟩ :=
            classifyStep_dups hash mf s g m2 fol c n0 hm2 hmap2 hgc hpair
          simp only [classifyRun, hext0, if_true]
          rw [classifyRun_outcomes_frozen hash mf fs _ g.name hfs_ne, hout,
            alGet_append, hfresh g (List.mem_cons_self g fs)]
          simp [alGet]
        · simp only [classifyRun, hext0, if_true]
          exact ih (classifyStep hash mf s f0).1 hnd2 hfresh2 hpair2
            (fun x hx => hne0 x (List.mem_cons_of_mem f0 hx)) g hgmem hgc hgext hgmap
      · rcases List.mem_cons.mp hg with rfl | hgmem
        · exact absurd hgext hext0
        · simp only [classifyRun, hext0, Bool.false_eq_true, if_false]
          exact ih s hnd2 (fun x hx => hfresh x (List.mem_cons_of_mem f0 hx)) hpair
            (fun x hx => hne0 x (List.mem_cons_of_mem f0 hx)) g hgmem hgc hgext hgmap

/-- The classify run over the two-file root listing `b.jpg`, `a.jpg`
(byte-identical contents, same mapped model), for any hash function. -/
theorem classifyRun_b_a (hash : List Nat → Nat) :
    (classifyRun hash exNoMF [exMFb, exMFa] exMS0).1.outcomes =
      [("b.jpg", .moved (sanitize_folder_name "Sony ILCE-6000")), ("a.jpg", .dup)] ∧
    (classifyRun hash exNoMF [exMFb, exMFa] exMS0).1.movedL = ["CAMERAS/b.jpg"] := by
  have hextb : allowedModel exMFb.ext = true := by decide
  have hexta : allowedModel exMFa.ext = true := by decide
  obtain ⟨houtB, hflagB, hmvB, hpairB⟩ :=
    classifyStep_moves hash exNoMF exMS0 exMFb "ILCE-6000" "Sony ILCE-6000" [1]
      (by decide) (by decide) (by decide)
      (by intro pr hpr; simp [entryOfM, alGet, exMS0] at hpr)
      (by decide)
  obtain ⟨houtA, hflagA, hmvA⟩ :=
    classifyStep_dups hash exNoMF (classifyStep hash exNoMF exMS0 exMFb).1 exMFa
      "ILCE-6000" "Sony ILCE-6000" [1] exMFb.name
      (by decide) (by decide) (by decide) hpairB
  have hrun : (classifyRun hash exNoMF [exMFb, exMFa] exMS0).1 =
      (classifyStep hash exNoMF (classifyStep hash exNoMF exMS0 exMFb).1 exMFa).1 := by
    simp only [classifyRun, hextb, hexta, if_true]
  rw [hrun]
  constructor
  · rw [houtA, houtB]
    decide
  · rw [hmvA, hmvB]
    decide

/-- Claim C7, counterexample.  `classify_images` iterates the
`os.listdir` snapshot in enumeration order and moves the FIRST enumerated
member of a same-content group, not the lexicographically smallest path:
with root files enumerated as `b.jpg` then `a.jpg` (byte-identical
content, same mapped model), `b.jpg` is moved and `a.jpg` is the
duplicate, although `CAMERAS/a.jpg` sorts strictly before
`CAMERAS/b.jpg`. -/
theorem claim_C7_cex :
    (classifyRun sha256Nat exNoMF [exMFb, exMFa] exMS0).1.outcomes =
      [("b.jpg", .moved (sanitize_folder_name "Sony ILCE-6000")), ("a.jpg", .dup)] ∧
    (classifyRun sha256Nat exNoMF [exMFb, exMFa] exMS0).1.movedL =
      ["CAMERAS/b.jpg"] ∧
    exMFa.content = exMFb.content ∧
    (mpath exMFa).data < (mpath exMFb).data := by
  obtain ⟨h1, h2⟩ := classifyRun_b_a sha256Nat
  exact ⟨h1, h2, by decide, by decide⟩

/-- Claim C7, amended.  Determinism holds, but the canonical member of a
same-digest group is the FIRST ENUMERATED one, not the lexicographically
smallest path: if `fc` is the first file of the listing whose content
hashes like `c` (nothing before it and nothing initially at the
destination does), its move succeeds, and every same-digest file maps to
the same folder, then `fc` gets the `MOVED` outcome and every later file
with content `c` gets the duplicate outcome. -/
theorem claim_C7 (hash : List Nat → Nat) (mf : String → String → Bool)
    (pre post : List MFile) (fc : MFile) (c : List Nat) (mc folderc : String)
    (s : MState)
    (hnd : ((pre ++ fc :: post).map fun g => g.name).Nodup)
    (hfresh : ∀ g ∈ pre ++ fc :: post, alGet g.name s.outcomes = none)
    (hc : fc.content = some c)
    (hm : fc.model = some mc) (hmap : MODEL_TO_FOLDER mc = some folderc)
    (hext : allowedModel fc.ext = true)
    (hmf : mf (sanitize_folder_name folderc) fc.name = false)
    (hpre : ∀ g ∈ pre, ∀ cf, g.content = some cf → hash cf ≠ hash c)
    (hdest0 : ∀ pr ∈ entryOfM s.dests (sanitize_folder_name folderc),
      ∀ d, pr.2 = some d → hash d ≠ hash c)
    (hsame : ∀ g ∈ post, g.content = some c → allowedModel g.ext = true ∧
      ∃ m2, g.model = some m2 ∧ MODEL_TO_FOLDER m2 = some folderc) :
    alGet fc.name (classifyRun hash mf (pre ++ fc :: post) s).1.outcomes =
      some (.moved (sanitize_folder_name folderc)) ∧
    ∀ g ∈ post, g.content = some c →
      alGet g.name (classifyRun hash mf (pre ++ fc :: post) s).1.outcomes =
        some .dup := by
  rw [List.map_append, List.nodup_append] at hnd
  have hndc := hnd.2.1
  rw [List.map_cons, List.nodup_cons] at hndc
  have hfcpost : fc.name ∉ post.map fun x => x.name := hndc.1
  have hndpost : (post.map fun x => x.name).Nodup := hndc.2
  have hpost_ne : ∀ g ∈ post, g.name ≠ fc.name := by
    intro g hg he
    exact hfcpost (he ▸ List.mem_map_of_mem _ hg)
  have hdis : ∀ g ∈ fc :: post, g.name ∉ pre.map fun x => x.name := by
    intro g hg hmem
    exact hnd.2.2 hmem (by
      rw [List.map_cons]
      rcases List.mem_cons.mp hg with rfl | hg2
      · exact List.mem_cons_self _ _
      · exact List.mem_cons_of_mem _ (List.mem_map_of_mem _ hg2))
  obtain ⟨LA, hLA1, hLA2, -⟩ := classifyRun_char hash mf pre s
  have hfreshA : ∀ g ∈ fc :: post,
      alGet g.name (classifyRun hash mf pre s).1.outcomes = none := by
    intro g hg
    have hnone : alGet g.name LA = none := by
      apply alGet_eq_none_of_not_mem
      rw [hLA2]
      intro hmem
      apply hdis g hg
      obtain ⟨x, hx, hxe⟩ := List.mem_map.mp hmem
      exact hxe ▸ List.mem_map_of_mem _ (List.mem_of_mem_filter hx)
    rw [hLA1, alGet_append, hfresh g (List.mem_append_right pre hg)]
    simpa using hnone
  have hnoA : ∀ pr ∈ entryOfM (classifyRun hash mf pre s).1.dests
      (sanitize_folder_name folderc), ∀ d, pr.2 = some d → hash d ≠ hash c :=
    classifyRun_noC hash mf (sanitize_folder_name folderc) c pre s hpre hdest0
  obtain ⟨houtB, hflagB, hmvB, hpairB⟩ :=
    classifyStep_moves hash mf (classifyRun hash mf pre s).1 fc mc folderc c
      hm hmap hc hnoA hmf
  have hfreshB : ∀ g ∈ post, alGet g.name
      (classifyStep hash mf (classifyRun hash mf pre s).1 fc).1.outcomes = none := by
    intro g hg
    have hne : fc.name ≠ g.name := fun he => hpost_ne g hg he.symm
    rw [houtB, alGet_append, hfreshA g (List.mem_cons_of_mem fc hg)]
    simp [alGet, hne]
  rw [classifyRun_append hash mf pre (fc :: post) s]
  simp only [classifyRun, hext, if_true]
  constructor
  · rw [classifyRun_outcomes_frozen hash mf post _ fc.name hpost_ne, houtB,
      alGet_append, hfreshA fc (List.mem_cons_self fc post)]
    simp [alGet]
  · intro g hg hgc
    exact classifyRun_dup_phase hash mf folderc c fc.name post
      (classifyStep hash mf (classifyRun hash mf pre s).1 fc).1
      hndpost hfreshB hpairB hpost_ne g hg hgc
      (hsame g hg hgc).1 (hsame g hg hgc).2

/-- Claim C7, witness: the amended theorem evaluated on the two-file
listing `b.jpg`, `a.jpg` with byte-identical contents. -/
theorem claim_C7_witness :
    alGet exMFb.name
        (classifyRun sha256Nat exNoMF ([] ++ exMFb :: [exMFa]) exMS0).1.outcomes =
      some (.moved (sanitize_folder_name "Sony ILCE-6000")) ∧
    ∀ g ∈ [exMFa], g.content = some [1] →
      alGet g.name
          (classifyRun sha256Nat exNoMF ([] ++ exMFb :: [exMFa]) exMS0).1.outcomes =
        some .dup :=
  claim_C7 sha256Nat exNoMF [] [exMFa] exMFb [1] "ILCE-6000" "Sony ILCE-6000" exMS0
    (by decide) (by intro g hg; rfl) (by decide) (by decide) (by decide) (by decide)
    (by decide)
    (by intro g hg; cases hg)
    (by intro pr hpr; simp [entryOfM, alGet, exMS0] at hpr)
    (by
      intro g hg hgc
      rcases List.mem_singleton.mp hg with rfl
      exact ⟨by decide, "ILCE-6000", by decide, by decide⟩)

theorem innerFold_mem :
    ∀ (l : List (String × List (List String))) (acc : List (List String))
      (p : List String),
      p ∈ l.foldl
          (fun acc2 ne => if ne.2.length < 2 then acc2 else acc2 ++ ne.2) acc ↔
        p ∈ acc ∨ ∃ ne ∈ l, 2 ≤ ne.2.length ∧ p ∈ ne.2 := by
  intro l
  induction l with
  | nil => intro acc p; simp
  | cons x xs ih =>
      intro acc p
      simp only [List.foldl_cons]
      by_cases hc : x.2.length < 2
      · rw [if_pos hc, ih acc p]
        apply or_congr_right
        constructor
        · rintro ⟨ne, hne, h2, hp⟩
          exact ⟨ne, List.mem_cons_of_mem x hne, h2, hp⟩
        · rintro ⟨ne, hne, h2, hp⟩
          rcases List.mem_cons.mp hne with rfl | hne2
          · exact absurd h2 (by omega)
          · exact ⟨ne, hne2, h2, hp⟩
      · rw [if_neg hc, ih (acc ++ x.2) p, List.mem_append]
        constructor
        · rintro ((h | h) | ⟨ne, hne, h2, hp⟩)
          · exact Or.inl h
          · exact Or.inr ⟨x, List.mem_cons_self x xs, by omega, h⟩
          · exact Or.inr ⟨ne, List.mem_cons_of_mem x hne, h2, hp⟩
        · rintro (h | ⟨ne, hne, h2, hp⟩)
          · exact Or.inl (Or.inl h)
          · rcases List.mem_cons.mp hne with rfl | hne2
            · exact Or.inl (Or.inr hp)
            · exact Or.inr ⟨ne, hne2, h2, hp⟩

theorem outerFold_mem :
    ∀ (ctn : List (String × List (String × List (List String))))
      (acc : List (List String)) (p : List String),
      p ∈ ctn.foldl
          (fun acc ce => ce.2.foldl
            (fun acc2 ne => if ne.2.length < 2 then acc2 else acc2 ++ ne.2) acc)
          acc ↔
        p ∈ acc ∨ ∃ ce ∈ ctn, ∃ ne ∈ ce.2, 2 ≤ ne.2.length ∧ p ∈ ne.2 := by
  intro ctn
  induction ctn with
  | nil => intro acc p; simp
  | cons x xs ih =>
      intro acc p
      simp only [List.foldl_cons]
      rw [ih _ p, innerFold_mem x.2 acc p]
      constructor
      · rintro ((h | ⟨ne, hne, h2, hp⟩) | ⟨ce, hce, ne, hne, h2, hp⟩)
        · exact Or.inl h
        · exact Or.inr ⟨x, List.mem_cons_self x xs, ne, hne, h2, hp⟩
        · exact Or.inr ⟨ce, List.mem_cons_of_mem x hce, ne, hne, h2, hp⟩
      · rintro (h | ⟨ce, hce, ne, hne, h2, hp⟩)
        · exact Or.inl (Or.inl h)
        · rcases List.mem_cons.mp hce with rfl | hce2
          · exact Or.inl (Or.inr ⟨ne, hne, h2, hp⟩)
          · exact Or.inr ⟨ce, hce2, ne, hne, h2, hp⟩

/-- The hashing phase of `detectar_duplicados` feeds to `sha256_of_file`
exactly the members of the buckets with at least two paths. -/
theorem dupHashedPaths_mem
    (ctn : List (String × List (String × List (List String))))
    (p : List String) :
    p ∈ dupHashedPaths ctn ↔
      ∃ ce ∈ ctn, ∃ ne ∈ ce.2, 2 ≤ ne.2.length ∧ p ∈ ne.2 := by
  unfold dupHashedPaths
  rw [outerFold_mem ctn [] p]
  simp

/-- Claim C8, counterexample.  model_sort v2.3 hashes every file with a
mapped model unconditionally: a single root file with no other same-named
file anywhere — a bucket of size one — still gets `sha256_of_file`
invoked on it (`is_duplicate` hashes the source before scanning the
destination, lines 146-148). -/
theorem claim_C8_cex :
    (classifyRun sha256Nat exNoMF [exMFb] exMS0).1.hashed = ["CAMERAS/b.jpg"] := by
  decide

/-- Claim C8, amended.  Lazy hashing holds in dup_search v2.4 — the paths
hashed by `detectar_duplicados` are exactly the members of buckets with
at least two same-named paths, so a singleton bucket is never hashed —
but NOT in model_sort v2.3, whose `classify_images` invokes
`sha256_of_file` on every file with a mapped model regardless of any
name collision. -/
theorem claim_C8 (fbf : List (List String × List String)) (p : List String)
    (hash : List Nat → Nat) (mf : String → String → Bool) (s : MState) (f : MFile)
    (m fol : String) (hm : f.model = some m)
    (hmap : MODEL_TO_FOLDER m = some fol) :
    (p ∈ dupHashedPaths (buildCTN fbf) ↔
      ∃ ce ∈ buildCTN fbf, ∃ ne ∈ ce.2, 2 ≤ ne.2.length ∧ p ∈ ne.2) ∧
    mpath f ∈ (classifyStep hash mf s f).1.hashed :=
  ⟨dupHashedPaths_mem (buildCTN fbf) p,
   classifyStep_hashes hash mf s f m fol hm hmap⟩

/-- Claim C8, witness: the amended theorem at a one-folder, one-file
`files_by_folder` and the single mapped root file `b.jpg`. -/
theorem claim_C8_witness :
    (["Sony", "x.jpg"] ∈ dupHashedPaths (buildCTN [(["Sony"], ["x.jpg"])]) ↔
      ∃ ce ∈ buildCTN [(["Sony"], ["x.jpg"])], ∃ ne ∈ ce.2,
        2 ≤ ne.2.length ∧ ["Sony", "x.jpg"] ∈ ne.2) ∧
    mpath exMFb ∈ (classifyStep sha256Nat exNoMF exMS0 exMFb).1.hashed :=
  claim_C8 [(["Sony"], ["x.jpg"])] ["Sony", "x.jpg"] sha256Nat exNoMF exMS0 exMFb
    "ILCE-6000" "Sony ILCE-6000" (by decide) (by decide)

/-- Claim C2, counterexample.  The `iff` cannot hold: a 256-bit digest
cannot separate all byte contents, so by pigeonhole two distinct byte
strings share their `sha256_of_file` digest — equal fingerprints do NOT
imply equal bytes. -/
theorem claim_C2_cex :
    ¬ ∀ a b : List Nat, (∀ x ∈ a, x < 256) → (∀ x ∈ b, x < 256) →
      (sha256_of_file (some a) = sha256_of_file (some b) ↔ a = b) := by
  intro h
  obtain ⟨a, b, ha, hb, hne, heq⟩ := sha256_collision
  exact hne ((h a b ha hb).mp
    (by rw [sha256_of_file_eq, sha256_of_file_eq, heq]))

/-- Claim C2, amended.  The direction the system relies on holds: the
fingerprint depends only on the byte content, never on path or name —
two files with identical content at any two paths in any two filesystems
get the identical digest — and the 8 KiB chunked streaming hash equals
the hash of the whole content. -/
theorem claim_C2 (fs1 fs2 : String → Option (List Nat)) (p1 p2 : String)
    (h : fs1 p1 = fs2 p2) :
    sha256_of_file (fs1 p1) = sha256_of_file (fs2 p2) ∧
    ∀ content : List Nat, fs1 p1 = some content →
      sha256_of_file (fs1 p1) = some (sha256Nat content) := by
  refine ⟨congrArg sha256_of_file h, ?_⟩
  intro content hc
  rw [hc, sha256_of_file_eq]

/-- Claim C2, witness: byte-identical files under different paths and
names in two filesystems. -/
theorem claim_C2_witness :
    exFS1 "A/IMG_1.JPG" = exFS2 "B/IMG_9.JPG" ∧
    (sha256_of_file (exFS1 "A/IMG_1.JPG") = sha256_of_file (exFS2 "B/IMG_9.JPG") ∧
    ∀ content : List Nat, exFS1 "A/IMG_1.JPG" = some content →
      sha256_of_file (exFS1 "A/IMG_1.JPG") = some (sha256Nat content)) :=
  ⟨by decide, claim_C2 exFS1 exFS2 "A/IMG_1.JPG" "B/IMG_9.JPG" (by decide)⟩

/-- Claim C1, confirmed.  No data loss in either relocation engine, over
a listing of distinct names not yet processed.  date_sort: a file whose
recorded outcome is not `MOVED` is still in the camera folder after the
run; a file recorded `MOVED` is gone from the camera folder and its
name-content pair sits unchanged under the destination month folder.
model_sort: the same for the root listing and the destination camera
folders. -/
theorem claim_C1 (env : DateEnv) (hash : List Nat → Nat) (mf : String → String → Bool)
    (dfiles : List DFile) (ds : DState) (mfiles : List MFile) (ms : MState)
    (hdnd : (dfiles.map fun f => f.name).Nodup)
    (hdfresh : ∀ g ∈ dfiles, alGet g.name ds.outcomes = none)
    (hmnd : (mfiles.map fun f => f.name).Nodup)
    (hmfresh : ∀ g ∈ mfiles, alGet g.name ms.outcomes = none) :
    (∀ f ∈ dfiles,
      (∀ o, alGet f.name (dateRun env dfiles ds).1.outcomes = some o →
        o.isMoved = false → f ∈ (dateRun env dfiles ds).2) ∧
      (∀ k, alGet f.name (dateRun env dfiles ds).1.outcomes = some (.moved k) →
        (f.name, f.content) ∈ entryOf (dateRun env dfiles ds).1.months k ∧
        ∀ g ∈ (dateRun env dfiles ds).2, g.name ≠ f.name)) ∧
    (∀ f ∈ mfiles,
      (∀ o, alGet f.name (classifyRun hash mf mfiles ms).1.outcomes = some o →
        o.isMoved = false → f ∈ (classifyRun hash mf mfiles ms).2) ∧
      (∀ k, alGet f.name (classifyRun hash mf mfiles ms).1.outcomes =
          some (.moved k) →
        (f.name, f.content) ∈ entryOfM (classifyRun hash mf mfiles ms).1.dests k ∧
        ∀ g ∈ (classifyRun hash mf mfiles ms).2, g.name ≠ f.name)) := by
  constructor
  · intro f hf
    obtain ⟨-, h2, h3⟩ := dateRun_fate env dfiles ds hdnd hdfresh f hf
    exact ⟨h3, h2⟩
  · intro f hf
    obtain ⟨-, h2, h3⟩ := classifyRun_fate hash mf mfiles ms hmnd hmfresh f hf
    exact ⟨h3, h2⟩

/-- Claim C1, witness: both engines on a one-file listing from the empty
state. -/
theorem claim_C1_witness :
    (∀ f ∈ [exF1],
      (∀ o, alGet f.name (dateRun exEnv [exF1] ⟨[], [], [], []⟩).1.outcomes =
          some o →
        o.isMoved = false → f ∈ (dateRun exEnv [exF1] ⟨[], [], [], []⟩).2) ∧
      (∀ k, alGet f.name (dateRun exEnv [exF1] ⟨[], [], [], []⟩).1.outcomes =
          some (.moved k) →
        (f.name, f.content) ∈
          entryOf (dateRun exEnv [exF1] ⟨[], [], [], []⟩).1.months k ∧
        ∀ g ∈ (dateRun exEnv [exF1] ⟨[], [], [], []⟩).2, g.name ≠ f.name)) ∧
    (∀ f ∈ [exMFb],
      (∀ o, alGet f.name (classifyRun sha256Nat exNoMF [exMFb] exMS0).1.outcomes =
          some o →
        o.isMoved = false → f ∈ (classifyRun sha256Nat exNoMF [exMFb] exMS0).2) ∧
      (∀ k, alGet f.name (classifyRun sha256Nat exNoMF [exMFb] exMS0).1.outcomes =
          some (.moved k) →
        (f.name, f.content) ∈
          entryOfM (classifyRun sha256Nat exNoMF [exMFb] exMS0).1.dests k ∧
        ∀ g ∈ (classifyRun sha256Nat exNoMF [exMFb] exMS0).2, g.name ≠ f.name)) :=
  claim_C1 exEnv sha256Nat exNoMF [exF1] ⟨[], [], [], []⟩ [exMFb] exMS0
    (by decide) (by intro g hg; rfl) (by decide) (by intro g hg; rfl)

end CamWork
